import Mathlib

/-!
Verification of the HMM engine of this repository (Baum-Welch training and
sequence generation). The notebook src/HMM/exhibition.ipynb defines the
subclass hmmCHAR with the leaky reestimation step `learn` and the sampler
`generate`; the base class (file hmm.py, referenced by the notebook but not
present in the repository snapshot) supplies `loaddata`, `forward`,
`backward`, the full-EM `learn` and the derived quantities Z, alpha, beta,
pobs.  All arithmetic is embedded exactly over the rationals; the IEEE
convention that x/0 is NaN becomes the Lean convention x/0 = 0, noted at
each place where it matters.
-/

namespace HMMRepo

/-- The model parameters held by class HMM: transition matrix A (N x N),
emission matrix B (N x M) and initial distribution Pi (length N). -/
structure HMM (N M : ℕ) where
  A : Fin N → Fin N → ℚ
  B : Fin N → Fin M → ℚ
  Pi : Fin N → ℚ

variable {N M : ℕ}

/-- Modelled from the spec: hmm.py is not in the repository snapshot; per
section 4.2 the emission cache is Z[t][i] = B[i][O[t]].  The loaded
observation sequence O is a function on time indices with values in the
alphabet, and T (its length) is passed where needed. -/
def Z (h : HMM N M) (O : ℕ → Fin M) (t : ℕ) (i : Fin N) : ℚ :=
  h.B i (O t)

/-- Modelled from the spec: the forward recursion of section 4.3 in its
unnormalized form, alpha[0][i] = Pi[i]*Z[0][i] and
alpha[t][i] = Z[t][i] * sum_j alpha[t-1][j]*A[j][i].  The notebook fixes
this convention: hmmCHAR.learn divides alpha*beta and xi by pobs, which is
exactly Rabiner (27)/(37) for unnormalized alpha/beta, and the printed
training outputs (row sums 1.000, stable likelihood ascent) are only
consistent with it. -/
def alpha (h : HMM N M) (O : ℕ → Fin M) : ℕ → Fin N → ℚ
  | 0 => fun i => h.Pi i * Z h O 0 i
  | t + 1 => fun i => Z h O (t + 1) i * ∑ j, alpha h O t j * h.A j i

/-- Modelled from the spec: pobs is the likelihood of the loaded sequence of
length T, the total mass of the final forward row (section 4.3; with the
unnormalized convention the product of the scale factors equals this sum). -/
def pobs (h : HMM N M) (O : ℕ → Fin M) (T : ℕ) : ℚ :=
  ∑ i, alpha h O (T - 1) i

/-- Modelled from the spec: auxiliary backward table, indexed by the number k
of steps before the final time, so betaAt k is beta at time T-1-k.
betaAt 0 = 1 and one step back multiplies by A and the next emission
(section 4.4, without the scaling division, matching the forward pass). -/
def betaAt (h : HMM N M) (O : ℕ → Fin M) (T : ℕ) : ℕ → Fin N → ℚ
  | 0 => fun _ => 1
  | k + 1 => fun i => ∑ j, h.A i j * Z h O (T - 1 - k) j * betaAt h O T k j

/-- Modelled from the spec: the backward variable at time t for a loaded
sequence of length T (section 4.4): beta[T-1] = 1 and
beta[t][i] = sum_j A[i][j]*Z[t+1][j]*beta[t+1][j]. -/
def beta (h : HMM N M) (O : ℕ → Fin M) (T t : ℕ) : Fin N → ℚ :=
  betaAt h O T (T - 1 - t)

/-- From the notebook line self.gamma = self.alpha*self.beta / self.pobs. -/
def gamma (h : HMM N M) (O : ℕ → Fin M) (T t : ℕ) (i : Fin N) : ℚ :=
  alpha h O t i * beta h O T t i / pobs h O T

/-- From the notebook line
self.xi = self.alpha[:-1,:,na]*self.A[na,:,:]*self.beta[1:,na,:]*self.Z[1:,na,:] / self.pobs
(meaningful for t in [0, T-2]). -/
def xi (h : HMM N M) (O : ℕ → Fin M) (T t : ℕ) (i j : Fin N) : ℚ :=
  alpha h O t i * h.A i j * beta h O T (t + 1) j * Z h O (t + 1) j / pobs h O T

/-- From the notebook line
self.psi = self.gamma[:,:,na]*(self.O[:,na,na] == np.arange(self.B.shape[1])[na,na,:]). -/
def psi (h : HMM N M) (O : ℕ → Fin M) (T t : ℕ) (i : Fin N) (k : Fin M) : ℚ :=
  gamma h O T t i * (if O t = k then 1 else 0)

/-- Modelled from the spec: the full-EM reestimation of the base class
(section 4.5): A_new[i][j] = sum_t xi[t][i][j] / sum_t gamma[t][i] with t in
[0,T-2] in both sums, B_new[i][k] = sum_t psi[t][i][k] / sum_t gamma[t][i]
with t in [0,T-1], Pi_new[i] = gamma[0][i].  The matching numpy sums in the
notebook are xi.sum(axis=0), gamma[:-1].sum(axis=0), psi.sum(axis=0) and
gamma.sum(axis=0). -/
def HMM.learn (h : HMM N M) (O : ℕ → Fin M) (T : ℕ) : HMM N M where
  A := fun i j =>
    (∑ t ∈ Finset.range (T - 1), xi h O T t i j) /
      (∑ t ∈ Finset.range (T - 1), gamma h O T t i)
  B := fun i k =>
    (∑ t ∈ Finset.range T, psi h O T t i k) /
      (∑ t ∈ Finset.range T, gamma h O T t i)
  Pi := fun i => gamma h O T 0 i

/-- From the notebook: the overriding method hmmCHAR.learn, which blends the
old parameters with the full-EM candidates using the fixed weights 0.9 and
0.1:
self.A  = 0.9*self.A  + 0.1*(self.xi.sum(axis=0)  / self.gamma[:-1].sum(axis=0)[:,na]),
self.B  = 0.9*self.B  + 0.1*(self.psi.sum(axis=0) / self.gamma.sum(axis=0)[:,na]),
self.Pi = 0.9*self.Pi + 0.1*(self.gamma[0]). -/
def hmmCHAR.learn (h : HMM N M) (O : ℕ → Fin M) (T : ℕ) : HMM N M where
  A := fun i j =>
    0.9 * h.A i j +
      0.1 * ((∑ t ∈ Finset.range (T - 1), xi h O T t i j) /
        (∑ t ∈ Finset.range (T - 1), gamma h O T t i))
  B := fun i k =>
    0.9 * h.B i k +
      0.1 * ((∑ t ∈ Finset.range T, psi h O T t i k) /
        (∑ t ∈ Finset.range T, gamma h O T t i))
  Pi := fun i => 0.9 * h.Pi i + 0.1 * gamma h O T 0 i

/-- Modelled from the spec: the leaky update of section 4.5 with a general
mixing rate g, lam_new = (1-g)*lam + g*lam_bar where lam_bar are the full-EM
candidates; the notebook hard-codes g = 0.1 (see hmmCHAR.learn and the lemma
hmmCHAR_learn_eq_leakyLearn). -/
def leakyLearn (g : ℚ) (h : HMM N M) (O : ℕ → Fin M) (T : ℕ) : HMM N M where
  A := fun i j => (1 - g) * h.A i j + g * (HMM.learn h O T).A i j
  B := fun i k => (1 - g) * h.B i k + g * (HMM.learn h O T).B i k
  Pi := fun i => (1 - g) * h.Pi i + g * (HMM.learn h O T).Pi i

/-- The loop body of hmmCHAR.generate: with l symbols still to produce, draw
counter c and current hidden state s, emit a symbol from the row B[s] and
advance the state with a draw from the row A[s].  The random draws of
np.random.choice(n, p=w) are abstracted as the injected functions choiceN
and choiceM, indexed by the draw counter and returning an index below n, the
documented contract of np.random.choice. -/
def genloop (h : HMM N M) (choiceN : ℕ → (Fin N → ℚ) → Fin N)
    (choiceM : ℕ → (Fin M → ℚ) → Fin M) : ℕ → ℕ → Fin N → List ℕ
  | 0, _, _ => []
  | l + 1, c, s =>
      (choiceM c (h.B s)).val :: genloop h choiceN choiceM l (c + 1) (choiceN c (h.A s))

/-- From the notebook: hmmCHAR.generate(l) draws the initial state from Pi,
then alternates emitting from B[s] and advancing through A[s], returning the
list of l emitted symbols.  It reads only A, B, Pi and builds a fresh list. -/
def hmmCHAR.generate (h : HMM N M) (choiceN : ℕ → (Fin N → ℚ) → Fin N)
    (choiceM : ℕ → (Fin M → ℚ) → Fin M) (l : ℕ) : List ℕ :=
  genloop h choiceN choiceM l 0 (choiceN 0 h.Pi)

/-- The joint probability of a hidden state path s and the loaded
observations of length T+1: the initial draw, the T transitions and the
T+1 emissions (Rabiner equation 17, the quantity the Baum-Welch statistics
marginalize). -/
def pathP (h : HMM N M) (O : ℕ → Fin M) (T : ℕ) (s : ℕ → Fin N) : ℚ :=
  h.Pi (s 0) * (∏ t ∈ Finset.range T, h.A (s t) (s (t + 1))) *
    ∏ t ∈ Finset.range (T + 1), Z h O t (s t)

/-- Recursive form of the path weight, peeling one step from the end. -/
def pw (h : HMM N M) (O : ℕ → Fin M) : ℕ → (ℕ → Fin N) → ℚ
  | 0, s => h.Pi (s 0) * Z h O 0 (s 0)
  | T + 1, s => pw h O T s * h.A (s T) (s (T + 1)) * Z h O (T + 1) (s (T + 1))

/-- Extension of a finite path of length T+1 to all of the naturals,
clamping indices beyond T. -/
def pext (T : ℕ) (σ : Fin (T + 1) → Fin N) : ℕ → Fin N :=
  fun n => σ ⟨min n T, by omega⟩

/-- The forward recursion with an extra multiplicative test G inserted at
every time step; with G = 1 it is the plain forward recursion, and with
one-hot tests it computes posterior marginals. -/
def alphaGen (h : HMM N M) (O : ℕ → Fin M) (G : ℕ → Fin N → ℚ) : ℕ → Fin N → ℚ
  | 0 => fun i => G 0 i * (h.Pi i * Z h O 0 i)
  | t + 1 => fun i => G (t + 1) i * (Z h O (t + 1) i * ∑ j, alphaGen h O G t j * h.A j i)

/-- Concrete two-state, two-symbol model with uniform parameters, used to
instantiate the general theorems. -/
def m1 : HMM 2 2 := ⟨fun _ _ => 1/2, fun _ _ => 1/2, fun _ => 1/2⟩

/-- Concrete observation sequence 0, 1, 1, 1, ... over the binary alphabet. -/
def O1 : ℕ → Fin 2 := fun t => if t = 0 then 0 else 1

/-- Concrete deterministic two-state model: identity transitions, identity
emissions, all initial mass on state 0; state 1 is never visited. -/
def m2 : HMM 2 2 :=
  ⟨fun i j => if i = j then 1 else 0,
   fun i k => if i = k then 1 else 0,
   fun i => if i = 0 then 1 else 0⟩

/-- Concrete all-zero observation sequence over the binary alphabet. -/
def O2 : ℕ → Fin 2 := fun _ => 0

/-- Concrete one-state model that emits symbol 0 with probability one, so a
sequence containing symbol 1 is impossible under it. -/
def m3 : HMM 1 2 := ⟨fun _ _ => 1, fun _ k => if k = 0 then 1 else 0, fun _ => 1⟩

/-- Concrete all-one observation sequence, impossible under m3. -/
def O3 : ℕ → Fin 2 := fun _ => 1

/-- The backward recursion restated on absolute time indices: below the final
time, beta[t][i] = sum_j A[i][j]*Z[t+1][j]*beta[t+1][j]. -/
theorem beta_rec (h : HMM N M) (O : ℕ → Fin M) {T t : ℕ} (ht : t + 1 ≤ T - 1) (i : Fin N) :
    beta h O T t i = ∑ j, h.A i j * Z h O (t + 1) j * beta h O T (t + 1) j := by
  have h1 : T - 1 - t = (T - 1 - (t + 1)) + 1 := by omega
  have h2 : T - 1 - (T - 1 - (t + 1)) = t + 1 := by omega
  rw [beta, h1, betaAt, h2]
  rfl

/-- At the final time the backward variable is identically 1. -/
theorem beta_last (h : HMM N M) (O : ℕ → Fin M) (T : ℕ) (i : Fin N) :
    beta h O T (T - 1) i = 1 := by
  rw [beta, Nat.sub_self]
  rfl

/-- Core forward-backward consistency: k steps before the final time, the
inner product of the forward and backward rows equals pobs. -/
theorem sum_alpha_betaAt (h : HMM N M) (O : ℕ → Fin M) (T : ℕ) :
    ∀ k, k ≤ T - 1 →
      ∑ i, alpha h O (T - 1 - k) i * betaAt h O T k i = pobs h O T := by
  intro k
  induction k with
  | zero =>
    intro _
    simp [betaAt, pobs]
  | succ k ih =>
    intro hk
    have hk' : k ≤ T - 1 := Nat.le_of_succ_le hk
    have hidx : T - 1 - k = (T - 1 - (k + 1)) + 1 := by omega
    calc
      ∑ i, alpha h O (T - 1 - (k + 1)) i * betaAt h O T (k + 1) i
          = ∑ i, ∑ j, (alpha h O (T - 1 - (k + 1)) i * h.A i j) *
              (Z h O (T - 1 - k) j * betaAt h O T k j) := by
            refine Finset.sum_congr rfl fun i _ => ?_
            rw [betaAt, Finset.mul_sum]
            refine Finset.sum_congr rfl fun j _ => ?_
            ring
      _ = ∑ j, (∑ i, alpha h O (T - 1 - (k + 1)) i * h.A i j) *
              (Z h O (T - 1 - k) j * betaAt h O T k j) := by
            rw [Finset.sum_comm]
            exact Finset.sum_congr rfl fun j _ => (Finset.sum_mul ..).symm
      _ = ∑ j, alpha h O (T - 1 - k) j * betaAt h O T k j := by
            refine Finset.sum_congr rfl fun j _ => ?_
            rw [hidx, alpha]
            ring
      _ = pobs h O T := ih hk'

/-- Forward-backward consistency on absolute time indices: at every time
t of the loaded sequence, sum_i alpha[t][i]*beta[t][i] = pobs. -/
theorem sum_alpha_mul_beta (h : HMM N M) (O : ℕ → Fin M) {T t : ℕ} (ht : t ≤ T - 1) :
    ∑ i, alpha h O t i * beta h O T t i = pobs h O T := by
  have hk : T - 1 - (T - 1 - t) = t := by omega
  have := sum_alpha_betaAt h O T (T - 1 - t) (Nat.sub_le _ _)
  rw [hk] at this
  exact this

/-- Posterior normalization: each gamma row sums to 1 when pobs is nonzero. -/
theorem gamma_rowsum (h : HMM N M) (O : ℕ → Fin M) {T t : ℕ}
    (hp : pobs h O T ≠ 0) (ht : t ≤ T - 1) :
    ∑ i, gamma h O T t i = 1 := by
  unfold gamma
  rw [← Finset.sum_div, sum_alpha_mul_beta h O ht, div_self hp]

/-- Summing xi over the destination state recovers gamma. -/
theorem sum_xi_eq_gamma (h : HMM N M) (O : ℕ → Fin M) {T t : ℕ}
    (ht : t + 1 ≤ T - 1) (i : Fin N) :
    ∑ j, xi h O T t i j = gamma h O T t i := by
  unfold xi gamma
  rw [← Finset.sum_div, beta_rec h O ht i, Finset.mul_sum]
  congr 1
  refine Finset.sum_congr rfl fun j _ => ?_
  ring

/-- Summing psi over the symbol axis recovers gamma. -/
theorem sum_psi_eq_gamma (h : HMM N M) (O : ℕ → Fin M) (T t : ℕ) (i : Fin N) :
    ∑ k, psi h O T t i k = gamma h O T t i := by
  unfold psi
  simp [mul_ite]

/-- The notebook update hmmCHAR.learn is exactly the leaky update with
mixing rate 1/10. -/
theorem hmmCHAR_learn_eq_leakyLearn (h : HMM N M) (O : ℕ → Fin M) (T : ℕ) :
    hmmCHAR.learn h O T = leakyLearn (1/10) h O T := by
  unfold hmmCHAR.learn leakyLearn HMM.learn
  simp only [HMM.mk.injEq]
  refine ⟨?_, ?_, ?_⟩ <;> funext i <;> try funext j
  all_goals norm_num

/-- Claim C1, counterexample: at the uniform model m1 with the loaded
sequence O1 of length 2, gamma[0][0] differs from alpha[0][0]*beta[0][0], so
the reestimator does not compute gamma as the bare elementwise product: the
notebook divides by pobs. -/
theorem gamma_not_bare_product :
    gamma m1 O1 2 0 0 ≠ alpha m1 O1 0 0 * beta m1 O1 2 0 0 := by
  norm_num [gamma, pobs, alpha, beta, betaAt, Z, m1, O1, Fin.sum_univ_two]

/-- Claim C1 (amended): the reestimator computes
gamma[t][i] = alpha[t][i]*beta[t][i]/pobs (dividing the unnormalized
product by pobs), and whenever pobs is nonzero every row of gamma sums
to 1. -/
theorem gamma_div_pobs_and_rowsum (h : HMM N M) (O : ℕ → Fin M) (T t : ℕ) (i : Fin N)
    (hp : pobs h O T ≠ 0) (ht : t ≤ T - 1) :
    gamma h O T t i = alpha h O t i * beta h O T t i / pobs h O T ∧
      ∑ i', gamma h O T t i' = 1 :=
  ⟨rfl, gamma_rowsum h O hp ht⟩

/-- Claim C1, witness at the concrete model m1 and sequence O1. -/
theorem gamma_div_pobs_and_rowsum_witness :
    gamma m1 O1 2 1 0 = alpha m1 O1 1 0 * beta m1 O1 2 1 0 / pobs m1 O1 2 ∧
      ∑ i', gamma m1 O1 2 1 i' = 1 :=
  gamma_div_pobs_and_rowsum m1 O1 2 1 0
    (by norm_num [pobs, alpha, Z, m1, O1, Fin.sum_univ_two]) (by norm_num)

/-- Claim C10: psi[t][i][k] equals gamma[t][i] when O[t] = k and 0
otherwise, and summing psi over the symbol axis recovers gamma exactly. -/
theorem psi_one_hot_gamma (h : HMM N M) (O : ℕ → Fin M) (T t : ℕ) (i : Fin N) (k : Fin M) :
    psi h O T t i k = (if O t = k then gamma h O T t i else 0) ∧
      ∑ k', psi h O T t i k' = gamma h O T t i := by
  constructor
  · unfold psi
    split <;> simp
  · exact sum_psi_eq_gamma h O T t i

/-- Claim C3: the notebook update blends the old parameters with the
full-EM candidates of the loaded sequence at the fixed mixing rate 1/10:
A becomes (1-1/10)*A + (1/10)*(sum_t xi / sum_t gamma over t in [0,T-2]),
B becomes (1-1/10)*B + (1/10)*(sum_t psi / sum_t gamma over t in [0,T-1]),
Pi becomes (1-1/10)*Pi + (1/10)*gamma[0]. -/
theorem hmmCHAR_learn_is_leaky_blend (h : HMM N M) (O : ℕ → Fin M) (T : ℕ)
    (i j : Fin N) (k : Fin M) :
    (hmmCHAR.learn h O T).A i j =
        (1 - 1/10) * h.A i j +
          (1/10) * ((∑ t ∈ Finset.range (T - 1), xi h O T t i j) /
            (∑ t ∈ Finset.range (T - 1), gamma h O T t i)) ∧
      (hmmCHAR.learn h O T).B i k =
        (1 - 1/10) * h.B i k +
          (1/10) * ((∑ t ∈ Finset.range T, psi h O T t i k) /
            (∑ t ∈ Finset.range T, gamma h O T t i)) ∧
      (hmmCHAR.learn h O T).Pi i = (1 - 1/10) * h.Pi i + (1/10) * gamma h O T 0 i := by
  refine ⟨?_, ?_, ?_⟩ <;> · unfold hmmCHAR.learn; norm_num

/-- Claim C9: the leaky update with mixing rate 0 returns the model
unchanged, and with mixing rate 1 it coincides with the full-EM
replacement step on the same loaded sequence. -/
theorem leakyLearn_zero_id_one_fullEM (h : HMM N M) (O : ℕ → Fin M) (T : ℕ) :
    leakyLearn 0 h O T = h ∧ leakyLearn 1 h O T = HMM.learn h O T := by
  obtain ⟨a, b, p⟩ := h
  constructor <;>
    · simp only [leakyLearn, HMM.learn, HMM.mk.injEq]
      refine ⟨?_, ?_, ?_⟩ <;> funext i <;> try funext j
      all_goals ring

/-- Claim C4: for t in [0,T-2], xi[t][i][j] is
alpha[t][i]*A[i][j]*beta[t+1][j]*Z[t+1][j] divided by the normalizer pobs,
and with pobs nonzero the whole xi[t] slice sums to 1. -/
theorem xi_proportional_and_normalized (h : HMM N M) (O : ℕ → Fin M) (T t : ℕ)
    (i j : Fin N) (hp : pobs h O T ≠ 0) (ht : t + 2 ≤ T) :
    xi h O T t i j * pobs h O T =
        alpha h O t i * h.A i j * beta h O T (t + 1) j * Z h O (t + 1) j ∧
      ∑ i', ∑ j', xi h O T t i' j' = 1 := by
  constructor
  · unfold xi
    exact div_mul_cancel₀ _ hp
  · have ht1 : t + 1 ≤ T - 1 := by omega
    have ht0 : t ≤ T - 1 := by omega
    calc ∑ i', ∑ j', xi h O T t i' j'
        = ∑ i', gamma h O T t i' :=
          Finset.sum_congr rfl fun i' _ => sum_xi_eq_gamma h O ht1 i'
      _ = 1 := gamma_rowsum h O hp ht0

/-- Claim C4, counterexample: for the loaded sequence O3 of length 2, which
is impossible under the model m3 (pobs = 0), the xi slice at t = 0 sums to
0, not 1, so the normalization property does not hold for every loaded
sequence. -/
theorem xi_sum_not_one_when_degenerate :
    ¬ ∑ i', ∑ j', xi m3 O3 2 0 i' j' = 1 := by
  norm_num [xi, pobs, alpha, beta, betaAt, Z, m3, O3, Fin.sum_univ_one]

/-- Claim C4, witness at the concrete model m1 and sequence O1 of
length 2. -/
theorem xi_proportional_and_normalized_witness :
    xi m1 O1 2 0 0 1 * pobs m1 O1 2 =
        alpha m1 O1 0 0 * m1.A 0 1 * beta m1 O1 2 1 1 * Z m1 O1 1 1 ∧
      ∑ i', ∑ j', xi m1 O1 2 0 i' j' = 1 :=
  xi_proportional_and_normalized m1 O1 2 0 0 1
    (by norm_num [pobs, alpha, Z, m1, O1, Fin.sum_univ_two]) (by norm_num)

/-- The forward variables are nonnegative for a model with nonnegative
parameters. -/
theorem alpha_nonneg (h : HMM N M) (O : ℕ → Fin M)
    (hA : ∀ i j, 0 ≤ h.A i j) (hB : ∀ i k, 0 ≤ h.B i k) (hPi : ∀ i, 0 ≤ h.Pi i) :
    ∀ t i, 0 ≤ alpha h O t i := by
  intro t
  induction t with
  | zero =>
    intro i
    exact mul_nonneg (hPi i) (hB i _)
  | succ t ih =>
    intro i
    exact mul_nonneg (hB i _)
      (Finset.sum_nonneg fun j _ => mul_nonneg (ih j) (hA j i))

/-- The backward variables are nonnegative for a model with nonnegative
parameters. -/
theorem betaAt_nonneg (h : HMM N M) (O : ℕ → Fin M) (T : ℕ)
    (hA : ∀ i j, 0 ≤ h.A i j) (hB : ∀ i k, 0 ≤ h.B i k) :
    ∀ k i, 0 ≤ betaAt h O T k i := by
  intro k
  induction k with
  | zero =>
    intro i
    exact zero_le_one
  | succ k ih =>
    intro i
    exact Finset.sum_nonneg fun j _ =>
      mul_nonneg (mul_nonneg (hA i j) (hB j _)) (ih j)

/-- The xi statistics are nonnegative for a model with nonnegative
parameters and positive pobs. -/
theorem xi_nonneg (h : HMM N M) (O : ℕ → Fin M) (T : ℕ)
    (hA : ∀ i j, 0 ≤ h.A i j) (hB : ∀ i k, 0 ≤ h.B i k) (hPi : ∀ i, 0 ≤ h.Pi i)
    (hp : 0 ≤ pobs h O T) (t : ℕ) (i j : Fin N) :
    0 ≤ xi h O T t i j :=
  div_nonneg
    (mul_nonneg
      (mul_nonneg (mul_nonneg (alpha_nonneg h O hA hB hPi t i) (hA i j))
        (betaAt_nonneg h O T hA hB _ j))
      (hB j _)) hp

/-- The gamma statistics are nonnegative for a model with nonnegative
parameters and positive pobs. -/
theorem gamma_nonneg (h : HMM N M) (O : ℕ → Fin M) (T : ℕ)
    (hA : ∀ i j, 0 ≤ h.A i j) (hB : ∀ i k, 0 ≤ h.B i k) (hPi : ∀ i, 0 ≤ h.Pi i)
    (hp : 0 ≤ pobs h O T) (t : ℕ) (i : Fin N) :
    0 ≤ gamma h O T t i :=
  div_nonneg
    (mul_nonneg (alpha_nonneg h O hA hB hPi t i) (betaAt_nonneg h O T hA hB _ i)) hp

/-- Claim C5, counterexample: the deterministic model m2 is row-stochastic,
yet after one hmmCHAR.learn step on the length-1 sequence O2 the second row
of B sums to 9/10, because state 1 carries no posterior mass and its update
divides zero by zero (NaN in floating point, zero in the exact model). -/
theorem learn_breaks_row_stochastic :
    (∑ j, m2.A 0 j = 1) ∧ (∑ j, m2.A 1 j = 1) ∧
      (∑ k, m2.B 0 k = 1) ∧ (∑ k, m2.B 1 k = 1) ∧ (∑ i, m2.Pi i = 1) ∧
      ∑ k, (hmmCHAR.learn m2 O2 1).B 1 k ≠ 1 := by
  refine ⟨?_, ?_, ?_, ?_, ?_, ?_⟩ <;>
    norm_num [hmmCHAR.learn, psi, gamma, pobs, alpha, beta, betaAt, Z, m2, O2,
      Fin.sum_univ_two, Finset.sum_range_succ]

/-- Claim C5 (amended): provided the loaded sequence has nonzero pobs and
every state keeps nonzero posterior mass in both summation ranges, a
hmmCHAR.learn step preserves row-stochasticity of A and B and the total
mass of Pi; the dimensions N and M are fixed by the types and cannot
change. -/
theorem learn_preserves_row_stochastic (h : HMM N M) (O : ℕ → Fin M) (T : ℕ) (i : Fin N)
    (hp : pobs h O T ≠ 0)
    (hA : ∀ i', ∑ j, h.A i' j = 1) (hB : ∀ i', ∑ k, h.B i' k = 1)
    (hPi : ∑ i', h.Pi i' = 1)
    (hden1 : ∀ i', ∑ t ∈ Finset.range (T - 1), gamma h O T t i' ≠ 0)
    (hden2 : ∀ i', ∑ t ∈ Finset.range T, gamma h O T t i' ≠ 0) :
    ∑ j, (hmmCHAR.learn h O T).A i j = 1 ∧
      ∑ k, (hmmCHAR.learn h O T).B i k = 1 ∧
      ∑ i', (hmmCHAR.learn h O T).Pi i' = 1 := by
  have hAnum : ∑ j, ∑ t ∈ Finset.range (T - 1), xi h O T t i j =
      ∑ t ∈ Finset.range (T - 1), gamma h O T t i := by
    rw [Finset.sum_comm]
    refine Finset.sum_congr rfl fun t htm => ?_
    have ht1 : t + 1 ≤ T - 1 := by
      have := Finset.mem_range.mp htm
      omega
    exact sum_xi_eq_gamma h O ht1 i
  have hBnum : ∑ k, ∑ t ∈ Finset.range T, psi h O T t i k =
      ∑ t ∈ Finset.range T, gamma h O T t i := by
    rw [Finset.sum_comm]
    exact Finset.sum_congr rfl fun t _ => sum_psi_eq_gamma h O T t i
  refine ⟨?_, ?_, ?_⟩
  · show ∑ j, (0.9 * h.A i j + 0.1 * _) = 1
    rw [Finset.sum_add_distrib, ← Finset.mul_sum, ← Finset.mul_sum,
      ← Finset.sum_div, hAnum, div_self (hden1 i), hA i]
    norm_num
  · show ∑ k, (0.9 * h.B i k + 0.1 * _) = 1
    rw [Finset.sum_add_distrib, ← Finset.mul_sum, ← Finset.mul_sum,
      ← Finset.sum_div, hBnum, div_self (hden2 i), hB i]
    norm_num
  · show ∑ i', (0.9 * h.Pi i' + 0.1 * gamma h O T 0 i') = 1
    rw [Finset.sum_add_distrib, ← Finset.mul_sum, ← Finset.mul_sum, hPi,
      gamma_rowsum h O hp (Nat.zero_le _)]
    norm_num

/-- Claim C5, witness at the uniform model m1 and the loaded sequence O1 of
length 2, where every state keeps posterior mass. -/
theorem learn_preserves_row_stochastic_witness :
    ∑ j, (hmmCHAR.learn m1 O1 2).A 0 j = 1 ∧
      ∑ k, (hmmCHAR.learn m1 O1 2).B 0 k = 1 ∧
      ∑ i', (hmmCHAR.learn m1 O1 2).Pi i' = 1 :=
  learn_preserves_row_stochastic m1 O1 2 0
    (by norm_num [pobs, alpha, Z, m1, O1, Fin.sum_univ_two])
    (fun i' => by norm_num [m1, Fin.sum_univ_two])
    (fun i' => by norm_num [m1, Fin.sum_univ_two])
    (by norm_num [m1, Fin.sum_univ_two])
    (fun i' => by
      norm_num [Finset.sum_range_succ, gamma, pobs, alpha, beta, betaAt, Z,
        m1, O1, Fin.sum_univ_two])
    (fun i' => by
      norm_num [Finset.sum_range_succ, gamma, pobs, alpha, beta, betaAt, Z,
        m1, O1, Fin.sum_univ_two])

/-- Claim C6, counterexample: in the deterministic model m2 on the length-1
sequence O2, state 1 has zero summed posterior mass, yet hmmCHAR.learn does
not leave its emission row unchanged: the entry B[1][1] moves from 1 to
9/10 (the unguarded 0/0 is NaN in floating point, 0 in the exact model). -/
theorem zero_posterior_row_changed :
    ∑ t ∈ Finset.range 1, gamma m2 O2 1 t 1 = 0 ∧
      (hmmCHAR.learn m2 O2 1).B 1 1 ≠ m2.B 1 1 := by
  constructor <;>
    norm_num [hmmCHAR.learn, psi, gamma, pobs, alpha, beta, betaAt, Z, m2, O2,
      Fin.sum_univ_two, Finset.sum_range_succ]

/-- Claim C6 (amended): for a model with nonnegative parameters and positive
pobs, if state i has zero summed posterior mass then all its xi and psi
statistics vanish, and instead of leaving the rows of A and B unchanged the
update rescales them by 0.9: the candidate term is the unguarded quotient
0/0, which is NaN in floating point and 0 in the exact model. -/
theorem zero_posterior_row_rescaled (h : HMM N M) (O : ℕ → Fin M) (T : ℕ)
    (i j : Fin N) (k : Fin M)
    (hA : ∀ i' j', 0 ≤ h.A i' j') (hB : ∀ i' k', 0 ≤ h.B i' k')
    (hPi : ∀ i', 0 ≤ h.Pi i') (hp : 0 < pobs h O T)
    (hg : ∑ t ∈ Finset.range T, gamma h O T t i = 0) :
    (hmmCHAR.learn h O T).A i j = 0.9 * h.A i j ∧
      (hmmCHAR.learn h O T).B i k = 0.9 * h.B i k := by
  have hg0 : ∀ t ∈ Finset.range T, gamma h O T t i = 0 :=
    (Finset.sum_eq_zero_iff_of_nonneg
      (fun t _ => gamma_nonneg h O T hA hB hPi hp.le t i)).mp hg
  have hg1 : ∑ t ∈ Finset.range (T - 1), gamma h O T t i = 0 :=
    Finset.sum_eq_zero fun t htm => by
      have := Finset.mem_range.mp htm
      exact hg0 t (Finset.mem_range.mpr (by omega))
  have hxi0 : ∀ t ∈ Finset.range (T - 1), xi h O T t i j = 0 := by
    intro t htm
    have htT : t < T - 1 := Finset.mem_range.mp htm
    have hsum : ∑ j', xi h O T t i j' = 0 := by
      rw [sum_xi_eq_gamma h O (by omega) i]
      exact hg0 t (Finset.mem_range.mpr (by omega))
    exact (Finset.sum_eq_zero_iff_of_nonneg
      (fun j' _ => xi_nonneg h O T hA hB hPi hp.le t i j')).mp hsum j
      (Finset.mem_univ j)
  constructor
  · show 0.9 * h.A i j + 0.1 * _ = 0.9 * h.A i j
    rw [Finset.sum_eq_zero hxi0, hg1]
    norm_num
  · show 0.9 * h.B i k + 0.1 * _ = 0.9 * h.B i k
    have hpsi0 : ∀ t ∈ Finset.range T, psi h O T t i k = 0 := fun t htm => by
      unfold psi
      rw [hg0 t htm, zero_mul]
    rw [Finset.sum_eq_zero hpsi0, hg]
    norm_num

/-- Claim C6, witness: the unvisited state 1 of the model m2 on the loaded
sequence O2 of length 1 has its rows of A and B rescaled by 0.9. -/
theorem zero_posterior_row_rescaled_witness :
    (hmmCHAR.learn m2 O2 1).A 1 0 = 0.9 * m2.A 1 0 ∧
      (hmmCHAR.learn m2 O2 1).B 1 1 = 0.9 * m2.B 1 1 :=
  zero_posterior_row_rescaled m2 O2 1 1 0 1
    (fun i' j' => by
      show (0:ℚ) ≤ if i' = j' then 1 else 0
      split <;> norm_num)
    (fun i' k' => by
      show (0:ℚ) ≤ if i' = k' then 1 else 0
      split <;> norm_num)
    (fun i' => by
      show (0:ℚ) ≤ if i' = 0 then 1 else 0
      split <;> norm_num)
    (by norm_num [pobs, alpha, Z, m2, O2, Fin.sum_univ_two])
    (by norm_num [gamma, pobs, alpha, beta, betaAt, Z, m2, O2,
      Fin.sum_univ_two, Finset.sum_range_succ])

/-- Claim C7, counterexample: the sequence O3 is impossible under the model
m3 (pobs = 0), yet the reestimation step is not a no-op: Pi[0] moves from 1
to 9/10 (in floating point the same division by pobs = 0 produces NaN and
Inf values that are written into the parameters). -/
theorem pobs_zero_update_not_noop :
    pobs m3 O3 1 = 0 ∧ (hmmCHAR.learn m3 O3 1).Pi 0 ≠ m3.Pi 0 := by
  constructor <;>
    norm_num [hmmCHAR.learn, psi, gamma, pobs, alpha, beta, betaAt, Z, m3, O3,
      Fin.sum_univ_one, Finset.sum_range_succ]

/-- Claim C7 (amended): when pobs = 0 every statistic gamma, xi, psi is a
division by zero (0 in the exact model, NaN or Inf in floating point), and
the update is not a no-op: each parameter is rescaled by 0.9.  The
downstream log-likelihood np.log(pobs) is -infinity in floating point,
outside the exact embedding. -/
theorem pobs_zero_learn_rescales (h : HMM N M) (O : ℕ → Fin M) (T : ℕ)
    (i j : Fin N) (k : Fin M) (hp : pobs h O T = 0) :
    (hmmCHAR.learn h O T).A i j = 0.9 * h.A i j ∧
      (hmmCHAR.learn h O T).B i k = 0.9 * h.B i k ∧
      (hmmCHAR.learn h O T).Pi i = 0.9 * h.Pi i := by
  have hgam : ∀ t i', gamma h O T t i' = 0 := fun t i' => by
    unfold gamma
    rw [hp, div_zero]
  have hxi : ∀ t i' j', xi h O T t i' j' = 0 := fun t i' j' => by
    unfold xi
    rw [hp, div_zero]
  have hpsi : ∀ t i' k', psi h O T t i' k' = 0 := fun t i' k' => by
    unfold psi
    rw [hgam, zero_mul]
  refine ⟨?_, ?_, ?_⟩
  · show 0.9 * h.A i j + 0.1 * _ = 0.9 * h.A i j
    rw [Finset.sum_eq_zero fun t _ => hxi t i j,
      Finset.sum_eq_zero fun t _ => hgam t i]
    norm_num
  · show 0.9 * h.B i k + 0.1 * _ = 0.9 * h.B i k
    rw [Finset.sum_eq_zero fun t _ => hpsi t i k,
      Finset.sum_eq_zero fun t _ => hgam t i]
    norm_num
  · show 0.9 * h.Pi i + 0.1 * gamma h O T 0 i = 0.9 * h.Pi i
    rw [hgam]
    norm_num

/-- Claim C7, witness: at the model m3 with the impossible sequence O3 the
update rescales every parameter by 0.9. -/
theorem pobs_zero_learn_rescales_witness :
    (hmmCHAR.learn m3 O3 1).A 0 0 = 0.9 * m3.A 0 0 ∧
      (hmmCHAR.learn m3 O3 1).B 0 1 = 0.9 * m3.B 0 1 ∧
      (hmmCHAR.learn m3 O3 1).Pi 0 = 0.9 * m3.Pi 0 :=
  pobs_zero_learn_rescales m3 O3 1 0 0 1
    (by norm_num [pobs, alpha, Z, m3, O3, Fin.sum_univ_one])

/-- The generation loop emits one symbol per remaining step, and every
emitted symbol is the value of a draw from a row of B, hence below M. -/
theorem genloop_spec (h : HMM N M) (cN : ℕ → (Fin N → ℚ) → Fin N)
    (cM : ℕ → (Fin M → ℚ) → Fin M) :
    ∀ l c s, (genloop h cN cM l c s).length = l ∧
      ∀ o ∈ genloop h cN cM l c s, o < M := by
  intro l
  induction l with
  | zero =>
    intro c s
    exact ⟨rfl, fun o ho => absurd ho (List.not_mem_nil o)⟩
  | succ l ih =>
    intro c s
    constructor
    · show (genloop h cN cM l (c + 1) (cN c (h.A s))).length + 1 = l + 1
      rw [(ih (c + 1) (cN c (h.A s))).1]
    · intro o ho
      rw [genloop, List.mem_cons] at ho
      rcases ho with rfl | hmem
      · exact (cM c (h.B s)).isLt
      · exact (ih (c + 1) (cN c (h.A s))).2 o hmem

/-- Claim C8: for a row-stochastic model, hmmCHAR.generate with requested
length l returns exactly l symbols, each in [0,M): it draws the initial
state from Pi, then at each step emits from the row B[s] and advances with
a draw from the row A[s]; it is a pure function of A, B, Pi and the
injected draws, so it mutates no model or per-sequence state. -/
theorem generate_length_and_range (h : HMM N M) (cN : ℕ → (Fin N → ℚ) → Fin N)
    (cM : ℕ → (Fin M → ℚ) → Fin M) (l : ℕ)
    (hA : ∀ i, ∑ j, h.A i j = 1) (hB : ∀ i, ∑ k, h.B i k = 1)
    (hPi : ∑ i, h.Pi i = 1) :
    (hmmCHAR.generate h cN cM l).length = l ∧
      ∀ o ∈ hmmCHAR.generate h cN cM l, o < M := by
  unfold hmmCHAR.generate
  exact genloop_spec h cN cM l 0 (cN 0 h.Pi)

/-- Claim C8, witness at the uniform model m1 with constant draw functions
and requested length 2. -/
theorem generate_length_and_range_witness :
    (hmmCHAR.generate m1 (fun _ _ => 0) (fun _ _ => 0) 2).length = 2 ∧
      ∀ o ∈ hmmCHAR.generate m1 (fun _ _ => 0) (fun _ _ => 0) 2, o < 2 :=
  generate_length_and_range m1 (fun _ _ => 0) (fun _ _ => 0) 2
    (fun i => by norm_num [m1, Fin.sum_univ_two])
    (fun i => by norm_num [m1, Fin.sum_univ_two])
    (by norm_num [m1, Fin.sum_univ_two])

/-- The recursive path weight equals the factorized joint probability. -/
theorem pw_eq_pathP (h : HMM N M) (O : ℕ → Fin M) :
    ∀ T (s : ℕ → Fin N), pw h O T s = pathP h O T s := by
  intro T
  induction T with
  | zero =>
    intro s
    show h.Pi (s 0) * Z h O 0 (s 0) = _
    rw [pathP, Finset.prod_range_one, Finset.prod_range_zero]
    ring
  | succ T ih =>
    intro s
    show pw h O T s * h.A (s T) (s (T + 1)) * Z h O (T + 1) (s (T + 1)) = _
    rw [ih]
    simp only [pathP, Finset.prod_range_succ]
    ring

/-- The path weight of the first T+1 steps reads only those values. -/
theorem pw_congr (h : HMM N M) (O : ℕ → Fin M) :
    ∀ T (s s' : ℕ → Fin N), (∀ n, n ≤ T → s n = s' n) → pw h O T s = pw h O T s' := by
  intro T
  induction T with
  | zero =>
    intro s s' hs
    show h.Pi (s 0) * Z h O 0 (s 0) = h.Pi (s' 0) * Z h O 0 (s' 0)
    rw [hs 0 le_rfl]
  | succ T ih =>
    intro s s' hs
    show pw h O T s * h.A (s T) (s (T + 1)) * Z h O (T + 1) (s (T + 1)) = _
    rw [ih s s' (fun n hn => hs n (by omega)), hs T (by omega), hs (T + 1) le_rfl]
    rfl

/-- Below the clamp point the extension returns the path value. -/
theorem pext_eq (T : ℕ) (σ : Fin (T + 1) → Fin N) (n : ℕ) (hn : n ≤ T) :
    pext T σ n = σ ⟨n, by omega⟩ := by
  unfold pext
  exact congrArg σ (Fin.ext (by simpa using Nat.min_eq_left hn))

/-- Extending a path obtained by appending a last state agrees with the
original extension below the appended point. -/
theorem pext_snoc_le (T : ℕ) (σ : Fin (T + 1) → Fin N) (jl : Fin N) (n : ℕ)
    (hn : n ≤ T) : pext (T + 1) (Fin.snoc σ jl) n = pext T σ n := by
  rw [pext_eq (T + 1) _ n (by omega), pext_eq T σ n hn]
  have hcast : (⟨n, by omega⟩ : Fin (T + 2)) = Fin.castSucc ⟨n, by omega⟩ := rfl
  rw [hcast, Fin.snoc_castSucc]

/-- Extending a path obtained by appending a last state returns that state
at the appended point. -/
theorem pext_snoc_last (T : ℕ) (σ : Fin (T + 1) → Fin N) (jl : Fin N) :
    pext (T + 1) (Fin.snoc σ jl) (T + 1) = jl := by
  rw [pext_eq (T + 1) _ (T + 1) le_rfl]
  have hcast : (⟨T + 1, by omega⟩ : Fin (T + 2)) = Fin.last (T + 1) := rfl
  rw [hcast, Fin.snoc_last]

/-- With tests equal to 1 up to time t the generalized forward recursion is
the plain forward recursion. -/
theorem alphaGen_eq_alpha (h : HMM N M) (O : ℕ → Fin M) (G : ℕ → Fin N → ℚ) :
    ∀ t, (∀ s, s ≤ t → ∀ i, G s i = 1) → ∀ i, alphaGen h O G t i = alpha h O t i := by
  intro t
  induction t with
  | zero =>
    intro hG i
    show G 0 i * (h.Pi i * Z h O 0 i) = _
    rw [hG 0 le_rfl, one_mul]
    rfl
  | succ t ih =>
    intro hG i
    show G (t + 1) i * (Z h O (t + 1) i * ∑ j, alphaGen h O G t j * h.A j i)
        = Z h O (t + 1) i * ∑ j, alpha h O t j * h.A j i
    rw [hG (t + 1) le_rfl, one_mul]
    congr 1
    exact Finset.sum_congr rfl fun j _ => by
      rw [ih (fun s hs => hG s (by omega)) j]

/-- Master marginalization lemma: the sum over all hidden paths of the path
weight, an arbitrary per-time multiplicative test G and a terminal test f
equals the generalized forward recursion paired with f. -/
theorem master (h : HMM N M) (O : ℕ → Fin M) (G : ℕ → Fin N → ℚ) :
    ∀ T (f : Fin N → ℚ),
      ∑ σ : Fin (T + 1) → Fin N,
        (pw h O T (pext T σ) * ∏ t ∈ Finset.range (T + 1), G t (pext T σ t)) *
          f (pext T σ T)
      = ∑ i, alphaGen h O G T i * f i := by
  intro T
  induction T with
  | zero =>
    intro f
    have hrhs : ∑ i, alphaGen h O G 0 i * f i
        = ∑ i, (G 0 i * (h.Pi i * Z h O 0 i)) * f i :=
      Finset.sum_congr rfl fun i _ => rfl
    rw [hrhs, ← (Equiv.funUnique (Fin 1) (Fin N)).sum_comp
      (fun i => (G 0 i * (h.Pi i * Z h O 0 i)) * f i)]
    refine Finset.sum_congr rfl fun σ _ => ?_
    have hsub : ∀ a b : Fin 1, a = b := by decide
    have he : ∀ n, pext 0 σ n = (Equiv.funUnique (Fin 1) (Fin N)) σ :=
      fun n => congrArg σ (hsub _ _)
    show (pw h O 0 (pext 0 σ) * ∏ t ∈ Finset.range 1, G t (pext 0 σ t)) *
        f (pext 0 σ 0) = _
    rw [Finset.prod_range_one]
    show (h.Pi (pext 0 σ 0) * Z h O 0 (pext 0 σ 0) * G 0 (pext 0 σ 0)) *
        f (pext 0 σ 0) = _
    rw [he 0]
    ring
  | succ T ih =>
    intro f
    rw [← (Fin.snocEquiv (fun _ : Fin (T + 2) => Fin N)).sum_comp
      (fun σ => (pw h O (T + 1) (pext (T + 1) σ) *
          ∏ t ∈ Finset.range (T + 2), G t (pext (T + 1) σ t)) *
        f (pext (T + 1) σ (T + 1))), Fintype.sum_prod_type]
    have hfun : ∀ (jl : Fin N) (σ' : Fin (T + 1) → Fin N),
        (Fin.snocEquiv (fun _ : Fin (T + 2) => Fin N)) (jl, σ') = Fin.snoc σ' jl :=
      fun jl σ' => funext fun j => rfl
    have hstep : ∀ (jl : Fin N) (σ' : Fin (T + 1) → Fin N),
        (pw h O (T + 1) (pext (T + 1) (Fin.snoc σ' jl)) *
            ∏ t ∈ Finset.range (T + 2), G t (pext (T + 1) (Fin.snoc σ' jl) t)) *
          f (pext (T + 1) (Fin.snoc σ' jl) (T + 1))
        = (pw h O T (pext T σ') * ∏ t ∈ Finset.range (T + 1), G t (pext T σ' t)) *
            (h.A (pext T σ' T) jl * Z h O (T + 1) jl * G (T + 1) jl * f jl) := by
      intro jl σ'
      have h1 : ∀ n, n ≤ T → pext (T + 1) (Fin.snoc σ' jl) n = pext T σ' n :=
        fun n hn => pext_snoc_le T σ' jl n hn
      have h2 : pext (T + 1) (Fin.snoc σ' jl) (T + 1) = jl := pext_snoc_last T σ' jl
      have h3 : pw h O (T + 1) (pext (T + 1) (Fin.snoc σ' jl))
          = pw h O T (pext T σ') * h.A (pext T σ' T) jl * Z h O (T + 1) jl := by
        show pw h O T (pext (T + 1) (Fin.snoc σ' jl)) *
            h.A (pext (T + 1) (Fin.snoc σ' jl) T) (pext (T + 1) (Fin.snoc σ' jl) (T + 1)) *
            Z h O (T + 1) (pext (T + 1) (Fin.snoc σ' jl) (T + 1)) = _
        rw [pw_congr h O T _ _ h1, h1 T le_rfl, h2]
      have h4 : ∏ t ∈ Finset.range (T + 2), G t (pext (T + 1) (Fin.snoc σ' jl) t)
          = (∏ t ∈ Finset.range (T + 1), G t (pext T σ' t)) * G (T + 1) jl := by
        rw [Finset.prod_range_succ, h2]
        congr 1
        refine Finset.prod_congr rfl fun t htm => ?_
        have := Finset.mem_range.mp htm
        rw [h1 t (by omega)]
      rw [h3, h4, h2]
      ring
    calc
      ∑ jl, ∑ σ' : Fin (T + 1) → Fin N,
          (pw h O (T + 1) (pext (T + 1)
              ((Fin.snocEquiv (fun _ : Fin (T + 2) => Fin N)) (jl, σ'))) *
            ∏ t ∈ Finset.range (T + 2), G t (pext (T + 1)
              ((Fin.snocEquiv (fun _ : Fin (T + 2) => Fin N)) (jl, σ')) t)) *
          f (pext (T + 1) ((Fin.snocEquiv (fun _ : Fin (T + 2) => Fin N)) (jl, σ')) (T + 1))
          = ∑ jl, ∑ σ' : Fin (T + 1) → Fin N,
            (pw h O T (pext T σ') * ∏ t ∈ Finset.range (T + 1), G t (pext T σ' t)) *
              (h.A (pext T σ' T) jl * Z h O (T + 1) jl * G (T + 1) jl * f jl) := by
            refine Finset.sum_congr rfl fun jl _ => Finset.sum_congr rfl fun σ' _ => ?_
            rw [hfun jl σ']
            exact hstep jl σ'
      _ = ∑ jl, ∑ i, alphaGen h O G T i *
            (h.A i jl * Z h O (T + 1) jl * G (T + 1) jl * f jl) := by
            refine Finset.sum_congr rfl fun jl _ => ?_
            exact ih (fun i => h.A i jl * Z h O (T + 1) jl * G (T + 1) jl * f jl)
      _ = ∑ jl, alphaGen h O G (T + 1) jl * f jl := by
            refine Finset.sum_congr rfl fun jl _ => ?_
            show _ = G (T + 1) jl * (Z h O (T + 1) jl * ∑ j, alphaGen h O G T j * h.A j jl) * f jl
            rw [Finset.mul_sum, Finset.mul_sum, Finset.sum_mul]
            refine Finset.sum_congr rfl fun i _ => ?_
            ring

/-- Sliding pairing invariant: any family satisfying the forward recursion
above time u keeps a constant inner product with the backward variables. -/
theorem pair_invariant (h : HMM N M) (O : ℕ → Fin M) (T u : ℕ) (W : ℕ → Fin N → ℚ)
    (hW : ∀ t, u ≤ t → ∀ i, W (t + 1) i = Z h O (t + 1) i * ∑ j, W t j * h.A j i) :
    ∀ s, u + s ≤ T - 1 →
      ∑ i, W (u + s) i * beta h O T (u + s) i = ∑ i, W u i * beta h O T u i := by
  intro s
  induction s with
  | zero =>
    intro _
    rfl
  | succ s ih =>
    intro hs
    calc
      ∑ i, W (u + (s + 1)) i * beta h O T (u + (s + 1)) i
          = ∑ i, ∑ j, (W (u + s) j * h.A j i) *
              (Z h O ((u + s) + 1) i * beta h O T ((u + s) + 1) i) := by
            refine Finset.sum_congr rfl fun i _ => ?_
            rw [show u + (s + 1) = (u + s) + 1 from rfl, hW (u + s) (by omega) i,
              show (Z h O ((u + s) + 1) i * ∑ j, W (u + s) j * h.A j i) *
                  beta h O T ((u + s) + 1) i
                = (∑ j, W (u + s) j * h.A j i) *
                  (Z h O ((u + s) + 1) i * beta h O T ((u + s) + 1) i) from by ring,
              Finset.sum_mul]
      _ = ∑ j, W (u + s) j *
            ∑ i, h.A j i * Z h O ((u + s) + 1) i * beta h O T ((u + s) + 1) i := by
            rw [Finset.sum_comm]
            refine Finset.sum_congr rfl fun j _ => ?_
            rw [Finset.mul_sum]
            refine Finset.sum_congr rfl fun i _ => ?_
            ring
      _ = ∑ j, W (u + s) j * beta h O T (u + s) j := by
            refine Finset.sum_congr rfl fun j _ => ?_
            rw [beta_rec h O (show (u + s) + 1 ≤ T - 1 by omega) j]
      _ = ∑ i, W u i * beta h O T u i := ih (by omega)

/-- The backward variable at the final time of a sequence of length T+1. -/
theorem beta_top (h : HMM N M) (O : ℕ → Fin M) (T : ℕ) (i : Fin N) :
    beta h O (T + 1) T i = 1 := by
  have : (T + 1) - 1 - T = 0 := by omega
  rw [beta, this]
  rfl

/-- A generalized forward table whose test is trivial below u and g at u
equals the plain forward value times the test. -/
theorem alphaGen_delta (h : HMM N M) (O : ℕ → Fin M) (G : ℕ → Fin N → ℚ) (u : ℕ)
    (g : Fin N → ℚ) (hGu : ∀ i, G u i = g i) (hlow : ∀ s, s < u → ∀ i, G s i = 1) :
    ∀ i, alphaGen h O G u i = g i * alpha h O u i := by
  cases u with
  | zero =>
    intro i
    show G 0 i * (h.Pi i * Z h O 0 i) = _
    rw [hGu i]
    rfl
  | succ v =>
    intro i
    show G (v + 1) i * (Z h O (v + 1) i * ∑ j, alphaGen h O G v j * h.A j i)
        = g i * (Z h O (v + 1) i * ∑ j, alpha h O v j * h.A j i)
    rw [hGu i]
    congr 2
    refine Finset.sum_congr rfl fun j _ => ?_
    rw [alphaGen_eq_alpha h O G v (fun s hs i' => hlow s (by omega) i') j]

/-- One-point marginal: summing the joint path probability against a test
of the hidden state at a single time u gives the forward-backward pairing
at u. -/
theorem marginal_one (h : HMM N M) (O : ℕ → Fin M) (T u : ℕ) (hu : u ≤ T)
    (g : Fin N → ℚ) :
    ∑ σ : Fin (T + 1) → Fin N, pathP h O T (pext T σ) * g (pext T σ u)
      = ∑ i, alpha h O u i * g i * beta h O (T + 1) u i := by
  have hmu : ∑ σ : Fin (T + 1) → Fin N,
      (pw h O T (pext T σ) * ∏ t ∈ Finset.range (T + 1),
        (if t = u then g (pext T σ t) else 1)) * (1 : ℚ)
      = ∑ i, alphaGen h O (fun t i' => if t = u then g i' else 1) T i * 1 :=
    master h O (fun t i' => if t = u then g i' else 1) T (fun _ => 1)
  have hL : ∑ σ : Fin (T + 1) → Fin N,
      (pw h O T (pext T σ) * ∏ t ∈ Finset.range (T + 1),
        (if t = u then g (pext T σ t) else 1)) * (1 : ℚ)
      = ∑ σ : Fin (T + 1) → Fin N, pathP h O T (pext T σ) * g (pext T σ u) := by
    refine Finset.sum_congr rfl fun σ _ => ?_
    rw [mul_one, pw_eq_pathP]
    congr 1
    have hprod : ∏ t ∈ Finset.range (T + 1), (if t = u then g (pext T σ t) else 1)
        = (if u = u then g (pext T σ u) else 1) :=
      Finset.prod_eq_single u (fun t _ ht => if_neg ht)
        (fun hu' => absurd (Finset.mem_range.mpr (show u < T + 1 by omega)) hu')
    rw [hprod, if_pos rfl]
  rw [← hL, hmu]
  have hWrec : ∀ t, u ≤ t → ∀ i,
      alphaGen h O (fun t' i' => if t' = u then g i' else 1) (t + 1) i
        = Z h O (t + 1) i *
          ∑ j, alphaGen h O (fun t' i' => if t' = u then g i' else 1) t j * h.A j i := by
    intro t ht i
    show (if t + 1 = u then g i else 1) * _ = _
    rw [if_neg (by omega), one_mul]
  have hpair := pair_invariant h O (T + 1) u
    (alphaGen h O (fun t' i' => if t' = u then g i' else 1)) hWrec (T - u)
    (show u + (T - u) ≤ (T + 1) - 1 by omega)
  rw [show u + (T - u) = T from by omega] at hpair
  calc
    ∑ i, alphaGen h O (fun t' i' => if t' = u then g i' else 1) T i * 1
        = ∑ i, alphaGen h O (fun t' i' => if t' = u then g i' else 1) T i *
            beta h O (T + 1) T i := by
          refine Finset.sum_congr rfl fun i _ => ?_
          rw [beta_top, mul_one]
    _ = ∑ i, alphaGen h O (fun t' i' => if t' = u then g i' else 1) u i *
            beta h O (T + 1) u i := hpair
    _ = ∑ i, alpha h O u i * g i * beta h O (T + 1) u i := by
          refine Finset.sum_congr rfl fun i _ => ?_
          rw [alphaGen_delta h O (fun t' i' => if t' = u then g i' else 1) u g
            (fun i' => if_pos rfl) (fun s hs i' => if_neg (by omega)) i]
          ring

/-- Two-point marginal: summing the joint path probability against one-hot
tests of the hidden states at two adjacent times t and t+1 gives the xi
numerator. -/
theorem marginal_two (h : HMM N M) (O : ℕ → Fin M) (T t : ℕ) (ht : t + 1 ≤ T)
    (i j : Fin N) :
    ∑ σ : Fin (T + 1) → Fin N, pathP h O T (pext T σ) *
        ((if pext T σ t = i then 1 else 0) * (if pext T σ (t + 1) = j then 1 else 0))
      = alpha h O t i * h.A i j * Z h O (t + 1) j * beta h O (T + 1) (t + 1) j := by
  set G : ℕ → Fin N → ℚ := fun t' i' =>
    if t' = t then (if i' = i then 1 else 0)
    else if t' = t + 1 then (if i' = j then 1 else 0) else 1 with hGdef
  have hmu : ∑ σ : Fin (T + 1) → Fin N,
      (pw h O T (pext T σ) * ∏ t' ∈ Finset.range (T + 1), G t' (pext T σ t')) * (1 : ℚ)
      = ∑ i', alphaGen h O G T i' * 1 := master h O G T (fun _ => 1)
  have hL : ∑ σ : Fin (T + 1) → Fin N,
      (pw h O T (pext T σ) * ∏ t' ∈ Finset.range (T + 1), G t' (pext T σ t')) * (1 : ℚ)
      = ∑ σ : Fin (T + 1) → Fin N, pathP h O T (pext T σ) *
          ((if pext T σ t = i then 1 else 0) *
            (if pext T σ (t + 1) = j then 1 else 0)) := by
    refine Finset.sum_congr rfl fun σ _ => ?_
    rw [mul_one, pw_eq_pathP]
    congr 1
    have hmem1 : t ∈ Finset.range (T + 1) := Finset.mem_range.mpr (by omega)
    have hmem2 : t + 1 ∈ (Finset.range (T + 1)).erase t :=
      Finset.mem_erase.mpr ⟨by omega, Finset.mem_range.mpr (by omega)⟩
    rw [← Finset.mul_prod_erase _ _ hmem1, ← Finset.mul_prod_erase _ _ hmem2]
    have hrest : ∏ t' ∈ ((Finset.range (T + 1)).erase t).erase (t + 1),
        G t' (pext T σ t') = 1 := by
      refine Finset.prod_eq_one fun t' ht' => ?_
      have h1 := (Finset.mem_erase.mp ht').1
      have h2 := (Finset.mem_erase.mp (Finset.mem_erase.mp ht').2).1
      rw [hGdef]
      simp only [if_neg h2, if_neg h1]
    rw [hrest, mul_one, hGdef]
    simp
  rw [← hL, hmu]
  have hWrec : ∀ s, t + 1 ≤ s → ∀ i',
      alphaGen h O G (s + 1) i' = Z h O (s + 1) i' * ∑ j', alphaGen h O G s j' * h.A j' i' := by
    intro s hs i'
    show G (s + 1) i' * _ = _
    rw [hGdef]
    simp only [if_neg (show ¬ s + 1 = t by omega), if_neg (show ¬ s + 1 = t + 1 by omega)]
    rw [one_mul]
  have hpair := pair_invariant h O (T + 1) (t + 1) (alphaGen h O G) hWrec
    (T - (t + 1)) (by omega)
  rw [show (t + 1) + (T - (t + 1)) = T from by omega] at hpair
  have hat : ∀ i', alphaGen h O G t i' = (if i' = i then 1 else 0) * alpha h O t i' :=
    alphaGen_delta h O G t (fun i' => if i' = i then 1 else 0)
      (fun i' => by rw [hGdef]; simp)
      (fun s hs i' => by
        rw [hGdef]
        simp [show s ≠ t from by omega, show s ≠ t + 1 from by omega])
  have hat1 : ∀ j', alphaGen h O G (t + 1) j'
      = (if j' = j then 1 else 0) * (Z h O (t + 1) j' * (alpha h O t i * h.A i j')) := by
    intro j'
    show G (t + 1) j' * (Z h O (t + 1) j' * ∑ i', alphaGen h O G t i' * h.A i' j') = _
    have hsum : ∑ i', alphaGen h O G t i' * h.A i' j' = alpha h O t i * h.A i j' := by
      calc ∑ i', alphaGen h O G t i' * h.A i' j'
          = ∑ i', (if i' = i then alpha h O t i' * h.A i' j' else 0) := by
            refine Finset.sum_congr rfl fun i' _ => ?_
            rw [hat i']
            by_cases hii : i' = i
            · rw [if_pos hii, if_pos hii, one_mul]
            · rw [if_neg hii, if_neg hii, zero_mul, zero_mul]
        _ = alpha h O t i * h.A i j' := by
            rw [Finset.sum_ite_eq' Finset.univ i (fun i' => alpha h O t i' * h.A i' j')]
            rw [if_pos (Finset.mem_univ i)]
    rw [hsum, hGdef]
    simp
  calc
    ∑ i', alphaGen h O G T i' * 1
        = ∑ i', alphaGen h O G T i' * beta h O (T + 1) T i' := by
          refine Finset.sum_congr rfl fun i' _ => ?_
          rw [beta_top, mul_one]
    _ = ∑ j', alphaGen h O G (t + 1) j' * beta h O (T + 1) (t + 1) j' := hpair
    _ = ∑ j', (if j' = j then
            Z h O (t + 1) j' * (alpha h O t i * h.A i j') * beta h O (T + 1) (t + 1) j'
          else 0) := by
          refine Finset.sum_congr rfl fun j' _ => ?_
          rw [hat1 j']
          by_cases hjj : j' = j
          · rw [if_pos hjj, if_pos hjj, one_mul]
          · rw [if_neg hjj, if_neg hjj, zero_mul, zero_mul]
    _ = alpha h O t i * h.A i j * Z h O (t + 1) j * beta h O (T + 1) (t + 1) j := by
          rw [Finset.sum_ite_eq' Finset.univ j
            (fun j' => Z h O (t + 1) j' * (alpha h O t i * h.A i j') *
              beta h O (T + 1) (t + 1) j')]
          rw [if_pos (Finset.mem_univ j)]
          ring

/-- The total path probability mass equals pobs. -/
theorem sum_pathP (h : HMM N M) (O : ℕ → Fin M) (T : ℕ) :
    ∑ σ : Fin (T + 1) → Fin N, pathP h O T (pext T σ) = pobs h O (T + 1) := by
  have := marginal_one h O T T le_rfl (fun _ => 1)
  calc
    ∑ σ : Fin (T + 1) → Fin N, pathP h O T (pext T σ)
        = ∑ σ : Fin (T + 1) → Fin N, pathP h O T (pext T σ) * 1 := by
          refine Finset.sum_congr rfl fun σ _ => (mul_one _).symm
    _ = ∑ i, alpha h O T i * 1 * beta h O (T + 1) T i := this
    _ = ∑ i, alpha h O T i := by
          refine Finset.sum_congr rfl fun i _ => ?_
          rw [beta_top, mul_one, mul_one]
    _ = pobs h O (T + 1) := rfl

/-- Path probabilities are nonnegative for nonnegative parameters. -/
theorem pathP_nonneg (h : HMM N M) (O : ℕ → Fin M) (T : ℕ) (s : ℕ → Fin N)
    (hA : ∀ i j, 0 ≤ h.A i j) (hB : ∀ i k, 0 ≤ h.B i k) (hPi : ∀ i, 0 ≤ h.Pi i) :
    0 ≤ pathP h O T s :=
  mul_nonneg (mul_nonneg (hPi _) (Finset.prod_nonneg fun _ _ => hA _ _))
    (Finset.prod_nonneg fun _ _ => hB _ _)

/-- The full-EM update produces nonnegative parameters. -/
theorem learn_nonneg (h : HMM N M) (O : ℕ → Fin M) (T : ℕ)
    (hA : ∀ i j, 0 ≤ h.A i j) (hB : ∀ i k, 0 ≤ h.B i k) (hPi : ∀ i, 0 ≤ h.Pi i)
    (hp : 0 ≤ pobs h O T) :
    (∀ i j, 0 ≤ (HMM.learn h O T).A i j) ∧ (∀ i k, 0 ≤ (HMM.learn h O T).B i k) ∧
      ∀ i, 0 ≤ (HMM.learn h O T).Pi i := by
  refine ⟨fun i j => ?_, fun i k => ?_, fun i => ?_⟩
  · exact div_nonneg
      (Finset.sum_nonneg fun t _ => xi_nonneg h O T hA hB hPi hp t i j)
      (Finset.sum_nonneg fun t _ => gamma_nonneg h O T hA hB hPi hp t i)
  · refine div_nonneg (Finset.sum_nonneg fun t _ => ?_)
      (Finset.sum_nonneg fun t _ => gamma_nonneg h O T hA hB hPi hp t i)
    exact mul_nonneg (gamma_nonneg h O T hA hB hPi hp t i) (by split <;> norm_num)
  · exact gamma_nonneg h O T hA hB hPi hp 0 i

/-- A nonnegative real raised to each of finitely many nonnegative exponents
multiplies to the base raised to the summed exponent. -/
theorem rpow_sum_of_nonneg {ι : Type*} (s : Finset ι) (x : ℝ) (hx : 0 ≤ x)
    (e : ι → ℝ) (he : ∀ a ∈ s, 0 ≤ e a) :
    x ^ (∑ a ∈ s, e a) = ∏ a ∈ s, x ^ e a := by
  rcases lt_or_eq_of_le hx with hxpos | hx0
  · clear he
    induction s using Finset.cons_induction with
    | empty => simp
    | cons a s ha ih => rw [Finset.sum_cons, Finset.prod_cons, Real.rpow_add hxpos, ih]
  · by_cases hz : ∀ a ∈ s, e a = 0
    · rw [Finset.sum_eq_zero hz, Real.rpow_zero]
      symm
      exact Finset.prod_eq_one fun a ha => by rw [hz a ha, Real.rpow_zero]
    · push_neg at hz
      obtain ⟨a, ha, hea⟩ := hz
      have heapos : 0 < e a := lt_of_le_of_ne (he a ha) (Ne.symm hea)
      have hsum : 0 < ∑ b ∈ s, e b :=
        lt_of_lt_of_le heapos (Finset.single_le_sum he ha)
      rw [← hx0, Real.zero_rpow (ne_of_gt hsum)]
      symm
      exact Finset.prod_eq_zero ha (Real.zero_rpow hea)

/-- One-hot expansion of a vector entry raised to an exponent. -/
theorem rpow_expand_one {α : Type*} [Fintype α] [DecidableEq α] (F : α → ℝ)
    (a : α) (e : ℝ) :
    ∏ i, F i ^ (e * (if a = i then 1 else 0)) = F a ^ e := by
  have h1 : ∏ i, F i ^ (e * (if a = i then 1 else 0))
      = F a ^ (e * (if a = a then 1 else 0)) :=
    Finset.prod_eq_single a
      (fun b _ hb => by rw [if_neg (fun hh => hb hh.symm), mul_zero, Real.rpow_zero])
      (fun ha => absurd (Finset.mem_univ a) ha)
  rw [h1, if_pos rfl, mul_one]

/-- One-hot expansion of a matrix entry raised to an exponent. -/
theorem rpow_expand_two {α β : Type*} [Fintype α] [DecidableEq α]
    [Fintype β] [DecidableEq β] (F : α → β → ℝ) (a : α) (b : β) (e : ℝ) :
    ∏ i, ∏ j, F i j ^ (e * ((if a = i then 1 else 0) * (if b = j then 1 else 0)))
      = F a b ^ e := by
  have h1 : ∀ i, ∏ j, F i j ^ (e * ((if a = i then 1 else 0) * (if b = j then 1 else 0)))
      = F i b ^ (e * (if a = i then 1 else 0)) := by
    intro i
    have hrow : ∏ j, F i j ^ (e * ((if a = i then 1 else 0) * (if b = j then 1 else 0)))
        = F i b ^ (e * ((if a = i then 1 else 0) * (if b = b then 1 else 0))) :=
      Finset.prod_eq_single b
        (fun c _ hc => by
          rw [if_neg (show ¬ b = c from fun hh => hc hh.symm), mul_zero, mul_zero,
            Real.rpow_zero])
        (fun hb => absurd (Finset.mem_univ b) hb)
    rw [hrow, if_pos rfl, mul_one]
  calc
    ∏ i, ∏ j, F i j ^ (e * ((if a = i then 1 else 0) * (if b = j then 1 else 0)))
        = ∏ i, F i b ^ (e * (if a = i then 1 else 0)) :=
          Finset.prod_congr rfl fun i _ => h1 i
    _ = F a b ^ e := rpow_expand_one (fun i => F i b) a e

/-- Gibbs inequality, multiplicative form: against a probability vector of
weights, a subprobability vector is dominated by the weights themselves in
the weighted geometric mean. -/
theorem gibbs_simplex {ι : Type*} (s : Finset ι) (w x : ι → ℝ)
    (hw : ∀ a ∈ s, 0 ≤ w a) (hw1 : ∑ a ∈ s, w a = 1)
    (hx : ∀ a ∈ s, 0 ≤ x a) (hx1 : ∑ a ∈ s, x a ≤ 1) :
    ∏ a ∈ s, x a ^ w a ≤ ∏ a ∈ s, w a ^ w a := by
  classical
  set z : ι → ℝ := fun a => if w a = 0 then 0 else x a / w a with hz
  have hznn : ∀ a ∈ s, 0 ≤ z a := by
    intro a ha
    rw [hz]
    by_cases h0 : w a = 0
    · simp [h0]
    · simp only [if_neg h0]
      exact div_nonneg (hx a ha) (hw a ha)
  have hgm := Real.geom_mean_le_arith_mean_weighted s w z hw hw1 hznn
  have hwz : ∀ a ∈ s, w a * z a ≤ x a := by
    intro a ha
    rw [hz]
    by_cases h0 : w a = 0
    · simp only [if_pos h0, mul_zero]
      exact hx a ha
    · simp only [if_neg h0]
      rw [mul_div_cancel₀ _ h0]
  have hsumz : ∑ a ∈ s, w a * z a ≤ 1 :=
    le_trans (Finset.sum_le_sum hwz) hx1
  have hzprod : ∏ a ∈ s, z a ^ w a ≤ 1 := le_trans hgm hsumz
  have hpt : ∀ a ∈ s, x a ^ w a = w a ^ w a * z a ^ w a := by
    intro a ha
    by_cases h0 : w a = 0
    · rw [h0, Real.rpow_zero, Real.rpow_zero, Real.rpow_zero, mul_one]
    · rw [hz]
      simp only [if_neg h0]
      rw [← Real.mul_rpow (hw a ha) (div_nonneg (hx a ha) (hw a ha)),
        mul_div_cancel₀ _ h0]
  calc
    ∏ a ∈ s, x a ^ w a = (∏ a ∈ s, w a ^ w a) * ∏ a ∈ s, z a ^ w a := by
      rw [← Finset.prod_mul_distrib]
      exact Finset.prod_congr rfl hpt
    _ ≤ (∏ a ∈ s, w a ^ w a) * 1 := by
      refine mul_le_mul_of_nonneg_left hzprod ?_
      exact Finset.prod_nonneg fun a ha => Real.rpow_nonneg (hw a ha) _
    _ = ∏ a ∈ s, w a ^ w a := mul_one _

/-- Gibbs inequality with unnormalized counts: the empirical row c divided
by its total dominates any subprobability row in the geometric mean
weighted by c. -/
theorem gibbs_counts {ι : Type*} (s : Finset ι) (c x : ι → ℝ)
    (hc : ∀ a ∈ s, 0 ≤ c a) (hx : ∀ a ∈ s, 0 ≤ x a) (hx1 : ∑ a ∈ s, x a ≤ 1) :
    ∏ a ∈ s, x a ^ c a ≤ ∏ a ∈ s, (c a / ∑ b ∈ s, c b) ^ c a := by
  rcases lt_or_eq_of_le (Finset.sum_nonneg hc) with hpos | h0
  · have hC : (∑ b ∈ s, c b) ≠ 0 := ne_of_gt hpos
    have hkey := gibbs_simplex s (fun a => c a / ∑ b ∈ s, c b) x
      (fun a ha => div_nonneg (hc a ha) (le_of_lt hpos))
      (by rw [← Finset.sum_div, div_self hC]) hx hx1
    have hL : (∏ a ∈ s, x a ^ (c a / ∑ b ∈ s, c b)) ^ (∑ b ∈ s, c b)
        = ∏ a ∈ s, x a ^ c a := by
      rw [← Real.finset_prod_rpow s _
        (fun a ha => Real.rpow_nonneg (hx a ha) _) (∑ b ∈ s, c b)]
      refine Finset.prod_congr rfl fun a ha => ?_
      rw [← Real.rpow_mul (hx a ha), div_mul_cancel₀ _ hC]
    have hR : (∏ a ∈ s, (c a / ∑ b ∈ s, c b) ^ (c a / ∑ b ∈ s, c b)) ^ (∑ b ∈ s, c b)
        = ∏ a ∈ s, (c a / ∑ b ∈ s, c b) ^ c a := by
      rw [← Real.finset_prod_rpow s _
        (fun a ha => Real.rpow_nonneg (div_nonneg (hc a ha) (le_of_lt hpos)) _)
        (∑ b ∈ s, c b)]
      refine Finset.prod_congr rfl fun a ha => ?_
      rw [← Real.rpow_mul (div_nonneg (hc a ha) (le_of_lt hpos)),
        div_mul_cancel₀ _ hC]
    rw [← hL, ← hR]
    refine Real.rpow_le_rpow ?_ hkey (le_of_lt hpos)
    exact Finset.prod_nonneg fun a ha => Real.rpow_nonneg (hx a ha) _
  · have hz : ∀ a ∈ s, c a = 0 := (Finset.sum_eq_zero_iff_of_nonneg hc).mp h0.symm
    have h1 : ∏ a ∈ s, x a ^ c a = 1 :=
      Finset.prod_eq_one fun a ha => by rw [hz a ha, Real.rpow_zero]
    have h2 : ∏ a ∈ s, (c a / ∑ b ∈ s, c b) ^ c a = 1 :=
      Finset.prod_eq_one fun a ha => by rw [hz a ha, Real.rpow_zero]
    rw [h1, h2]

/-- Collect a product of powers of vector entries selected by an index map
into per-entry powers with summed one-hot exponents. -/
theorem prod_rpow_single_collect {ι β : Type*} [Fintype ι] [Fintype β] [DecidableEq β]
    (F : β → ℝ) (w : ι → ℝ) (hw : ∀ σ, 0 ≤ w σ) (hF : ∀ b, 0 ≤ F b) (f : ι → β) :
    ∏ σ, F (f σ) ^ w σ
      = ∏ b, F b ^ (∑ σ, w σ * (if f σ = b then 1 else 0)) := by
  calc
    ∏ σ, F (f σ) ^ w σ
        = ∏ σ, ∏ b, F b ^ (w σ * (if f σ = b then 1 else 0)) :=
          Finset.prod_congr rfl fun σ _ => (rpow_expand_one F (f σ) (w σ)).symm
    _ = ∏ b, ∏ σ, F b ^ (w σ * (if f σ = b then 1 else 0)) := Finset.prod_comm
    _ = ∏ b, F b ^ (∑ σ, w σ * (if f σ = b then 1 else 0)) := by
          refine Finset.prod_congr rfl fun b _ => ?_
          exact (rpow_sum_of_nonneg Finset.univ (F b) (hF b) _
            (fun σ _ => mul_nonneg (hw σ) (by split <;> norm_num))).symm

/-- Collect a doubly indexed product of powers of matrix entries selected by
two index maps into per-entry powers with summed one-hot exponents. -/
theorem prod_rpow_double_collect {ι κ β γ : Type*} [Fintype ι]
    [Fintype β] [DecidableEq β] [Fintype γ] [DecidableEq γ] (s : Finset κ)
    (F : β → γ → ℝ) (w : ι → ℝ) (hw : ∀ σ, 0 ≤ w σ) (hF : ∀ b c, 0 ≤ F b c)
    (f : ι → κ → β) (g : ι → κ → γ) :
    ∏ σ, ∏ t ∈ s, F (f σ t) (g σ t) ^ w σ
      = ∏ b, ∏ c, F b c ^ (∑ σ, ∑ t ∈ s,
          w σ * ((if f σ t = b then 1 else 0) * (if g σ t = c then 1 else 0))) := by
  calc
    ∏ σ, ∏ t ∈ s, F (f σ t) (g σ t) ^ w σ
        = ∏ σ, ∏ t ∈ s, ∏ b, ∏ c, F b c ^
            (w σ * ((if f σ t = b then 1 else 0) * (if g σ t = c then 1 else 0))) := by
          refine Finset.prod_congr rfl fun σ _ => Finset.prod_congr rfl fun t _ => ?_
          exact (rpow_expand_two F (f σ t) (g σ t) (w σ)).symm
    _ = ∏ σ, ∏ b, ∏ c, ∏ t ∈ s, F b c ^
            (w σ * ((if f σ t = b then 1 else 0) * (if g σ t = c then 1 else 0))) := by
          refine Finset.prod_congr rfl fun σ _ => ?_
          rw [Finset.prod_comm]
          exact Finset.prod_congr rfl fun b _ => Finset.prod_comm
    _ = ∏ b, ∏ σ, ∏ c, ∏ t ∈ s, F b c ^
            (w σ * ((if f σ t = b then 1 else 0) * (if g σ t = c then 1 else 0))) :=
          Finset.prod_comm
    _ = ∏ b, ∏ c, ∏ σ, ∏ t ∈ s, F b c ^
            (w σ * ((if f σ t = b then 1 else 0) * (if g σ t = c then 1 else 0))) :=
          Finset.prod_congr rfl fun b _ => Finset.prod_comm
    _ = ∏ b, ∏ c, F b c ^ (∑ σ, ∑ t ∈ s,
            w σ * ((if f σ t = b then 1 else 0) * (if g σ t = c then 1 else 0))) := by
          refine Finset.prod_congr rfl fun b _ => Finset.prod_congr rfl fun c _ => ?_
          have hnn : ∀ (σ : ι) (t : κ), 0 ≤
              w σ * ((if f σ t = b then (1:ℝ) else 0) * (if g σ t = c then 1 else 0)) :=
            fun σ t => mul_nonneg (hw σ)
              (mul_nonneg (by split <;> norm_num) (by split <;> norm_num))
          calc
            ∏ σ, ∏ t ∈ s, F b c ^
                (w σ * ((if f σ t = b then 1 else 0) * (if g σ t = c then 1 else 0)))
                = ∏ σ, F b c ^ (∑ t ∈ s,
                    w σ * ((if f σ t = b then 1 else 0) * (if g σ t = c then 1 else 0))) := by
                  refine Finset.prod_congr rfl fun σ _ => ?_
                  exact (rpow_sum_of_nonneg s (F b c) (hF b c) _ (fun t _ => hnn σ t)).symm
            _ = F b c ^ (∑ σ, ∑ t ∈ s,
                    w σ * ((if f σ t = b then 1 else 0) * (if g σ t = c then 1 else 0))) :=
                  (rpow_sum_of_nonneg Finset.univ (F b c) (hF b c) _
                    (fun σ _ => Finset.sum_nonneg fun t _ => hnn σ t)).symm

/-- Decomposition of a weighted geometric mean of path probabilities into
per-entry powers of the parameters, exponents being the accumulated one-hot
visit counts. -/
theorem prod_pathP_rpow (g : HMM N M) (O : ℕ → Fin M) (T : ℕ)
    (w : (Fin (T + 1) → Fin N) → ℝ) (hw : ∀ σ, 0 ≤ w σ)
    (hA : ∀ i j, 0 ≤ g.A i j) (hB : ∀ i k, 0 ≤ g.B i k) (hPi : ∀ i, 0 ≤ g.Pi i) :
    ∏ σ : Fin (T + 1) → Fin N, ((pathP g O T (pext T σ) : ℚ) : ℝ) ^ w σ
      = (∏ i, ((g.Pi i : ℚ) : ℝ) ^
            (∑ σ : Fin (T + 1) → Fin N, w σ * (if pext T σ 0 = i then 1 else 0)))
        * (∏ i, ∏ j, ((g.A i j : ℚ) : ℝ) ^
            (∑ σ : Fin (T + 1) → Fin N, ∑ t ∈ Finset.range T, w σ *
              ((if pext T σ t = i then 1 else 0) *
                (if pext T σ (t + 1) = j then 1 else 0))))
        * (∏ i, ∏ k, ((g.B i k : ℚ) : ℝ) ^
            (∑ σ : Fin (T + 1) → Fin N, ∑ t ∈ Finset.range (T + 1), w σ *
              ((if pext T σ t = i then 1 else 0) * (if O t = k then 1 else 0)))) := by
  have hsplit : ∀ σ : Fin (T + 1) → Fin N,
      ((pathP g O T (pext T σ) : ℚ) : ℝ) ^ w σ
        = (((g.Pi (pext T σ 0) : ℚ) : ℝ) ^ w σ
            * ∏ t ∈ Finset.range T,
                ((g.A (pext T σ t) (pext T σ (t + 1)) : ℚ) : ℝ) ^ w σ)
          * ∏ t ∈ Finset.range (T + 1),
              ((g.B (pext T σ t) (O t) : ℚ) : ℝ) ^ w σ := by
    intro σ
    have hcast : ((pathP g O T (pext T σ) : ℚ) : ℝ)
        = ((g.Pi (pext T σ 0) : ℚ) : ℝ)
          * (∏ t ∈ Finset.range T, ((g.A (pext T σ t) (pext T σ (t + 1)) : ℚ) : ℝ))
          * ∏ t ∈ Finset.range (T + 1), ((g.B (pext T σ t) (O t) : ℚ) : ℝ) := by
      rw [pathP]
      push_cast
      rfl
    have hPiR : (0 : ℝ) ≤ ((g.Pi (pext T σ 0) : ℚ) : ℝ) := by exact_mod_cast hPi _
    have hAR : ∀ t, (0 : ℝ) ≤ ((g.A (pext T σ t) (pext T σ (t + 1)) : ℚ) : ℝ) :=
      fun t => by exact_mod_cast hA _ _
    have hBR : ∀ t, (0 : ℝ) ≤ ((g.B (pext T σ t) (O t) : ℚ) : ℝ) :=
      fun t => by exact_mod_cast hB _ _
    rw [hcast, Real.mul_rpow
        (mul_nonneg hPiR (Finset.prod_nonneg fun t _ => hAR t))
        (Finset.prod_nonneg fun t _ => hBR t),
      Real.mul_rpow hPiR (Finset.prod_nonneg fun t _ => hAR t),
      Real.finset_prod_rpow _ _ (fun t _ => hAR t) _,
      Real.finset_prod_rpow _ _ (fun t _ => hBR t) _]
  calc
    ∏ σ : Fin (T + 1) → Fin N, ((pathP g O T (pext T σ) : ℚ) : ℝ) ^ w σ
        = (∏ σ : Fin (T + 1) → Fin N, ((g.Pi (pext T σ 0) : ℚ) : ℝ) ^ w σ)
          * (∏ σ : Fin (T + 1) → Fin N, ∏ t ∈ Finset.range T,
              ((g.A (pext T σ t) (pext T σ (t + 1)) : ℚ) : ℝ) ^ w σ)
          * ∏ σ : Fin (T + 1) → Fin N, ∏ t ∈ Finset.range (T + 1),
              ((g.B (pext T σ t) (O t) : ℚ) : ℝ) ^ w σ := by
          rw [← Finset.prod_mul_distrib, ← Finset.prod_mul_distrib]
          exact Finset.prod_congr rfl fun σ _ => hsplit σ
    _ = _ := by
          congr 1
          · congr 1
            · exact prod_rpow_single_collect (fun i => ((g.Pi i : ℚ) : ℝ)) w hw
                (fun i => by show (0 : ℝ) ≤ ((g.Pi i : ℚ) : ℝ); exact_mod_cast hPi i)
                (fun σ => pext T σ 0)
            · exact prod_rpow_double_collect (Finset.range T)
                (fun i j => ((g.A i j : ℚ) : ℝ)) w hw
                (fun i j => by show (0 : ℝ) ≤ ((g.A i j : ℚ) : ℝ); exact_mod_cast hA i j)
                (fun σ t => pext T σ t) (fun σ t => pext T σ (t + 1))
          · exact prod_rpow_double_collect (Finset.range (T + 1))
              (fun i k => ((g.B i k : ℚ) : ℝ)) w hw
              (fun i k => by show (0 : ℝ) ≤ ((g.B i k : ℚ) : ℝ); exact_mod_cast hB i k)
              (fun σ t => pext T σ t) (fun _ t => O t)

/-- The expected one-hot state count at time u under the path posterior
equals gamma. -/
theorem count_gamma (h : HMM N M) (O : ℕ → Fin M) (T u : ℕ) (hu : u ≤ T) (i : Fin N) :
    ∑ σ : Fin (T + 1) → Fin N,
        ((pathP h O T (pext T σ) : ℚ) : ℝ) / ((pobs h O (T + 1) : ℚ) : ℝ) *
          (if pext T σ u = i then 1 else 0)
      = ((gamma h O (T + 1) u i : ℚ) : ℝ) := by
  have hq : ∑ σ : Fin (T + 1) → Fin N,
      pathP h O T (pext T σ) * (if pext T σ u = i then (1 : ℚ) else 0)
      = alpha h O u i * beta h O (T + 1) u i := by
    rw [marginal_one h O T u hu (fun i' => if i' = i then (1 : ℚ) else 0)]
    calc
      ∑ i', alpha h O u i' * (if i' = i then (1 : ℚ) else 0) * beta h O (T + 1) u i'
          = ∑ i', (if i' = i then alpha h O u i' * beta h O (T + 1) u i' else 0) := by
            refine Finset.sum_congr rfl fun i' _ => ?_
            by_cases hii : i' = i
            · rw [if_pos hii, if_pos hii, mul_one]
            · rw [if_neg hii, if_neg hii, mul_zero, zero_mul]
      _ = alpha h O u i * beta h O (T + 1) u i := by
            rw [Finset.sum_ite_eq' Finset.univ i
              (fun i' => alpha h O u i' * beta h O (T + 1) u i'),
              if_pos (Finset.mem_univ i)]
  have hcast : ∑ σ : Fin (T + 1) → Fin N,
      ((pathP h O T (pext T σ) : ℚ) : ℝ) * (if pext T σ u = i then (1 : ℝ) else 0)
      = ((alpha h O u i * beta h O (T + 1) u i : ℚ) : ℝ) := by
    rw [← hq, Rat.cast_sum]
    refine Finset.sum_congr rfl fun σ _ => ?_
    by_cases hcc : pext T σ u = i
    · rw [if_pos hcc, if_pos hcc]
      push_cast
      ring
    · rw [if_neg hcc, if_neg hcc]
      push_cast
      ring
  calc
    ∑ σ : Fin (T + 1) → Fin N,
        ((pathP h O T (pext T σ) : ℚ) : ℝ) / ((pobs h O (T + 1) : ℚ) : ℝ) *
          (if pext T σ u = i then 1 else 0)
        = (∑ σ : Fin (T + 1) → Fin N,
            ((pathP h O T (pext T σ) : ℚ) : ℝ) * (if pext T σ u = i then 1 else 0))
            / ((pobs h O (T + 1) : ℚ) : ℝ) := by
          rw [Finset.sum_div]
          refine Finset.sum_congr rfl fun σ _ => ?_
          ring
    _ = ((alpha h O u i * beta h O (T + 1) u i : ℚ) : ℝ)
            / ((pobs h O (T + 1) : ℚ) : ℝ) := by rw [hcast]
    _ = ((gamma h O (T + 1) u i : ℚ) : ℝ) := by
          show _ = ((alpha h O u i * beta h O (T + 1) u i / pobs h O (T + 1) : ℚ) : ℝ)
          push_cast
          ring

/-- The expected one-hot transition count under the path posterior equals
the summed xi statistics. -/
theorem count_A (h : HMM N M) (O : ℕ → Fin M) (T : ℕ) (i j : Fin N) :
    ∑ σ : Fin (T + 1) → Fin N, ∑ t ∈ Finset.range T,
        ((pathP h O T (pext T σ) : ℚ) : ℝ) / ((pobs h O (T + 1) : ℚ) : ℝ) *
          ((if pext T σ t = i then 1 else 0) * (if pext T σ (t + 1) = j then 1 else 0))
      = ((∑ t ∈ Finset.range T, xi h O (T + 1) t i j : ℚ) : ℝ) := by
  rw [Finset.sum_comm, Rat.cast_sum]
  refine Finset.sum_congr rfl fun t htm => ?_
  have htT : t + 1 ≤ T := by
    have := Finset.mem_range.mp htm
    omega
  have hq := marginal_two h O T t htT i j
  have hcast : ∑ σ : Fin (T + 1) → Fin N,
      ((pathP h O T (pext T σ) : ℚ) : ℝ) *
        ((if pext T σ t = i then 1 else 0) * (if pext T σ (t + 1) = j then 1 else 0))
      = ((alpha h O t i * h.A i j * Z h O (t + 1) j * beta h O (T + 1) (t + 1) j : ℚ) : ℝ) := by
    rw [← hq, Rat.cast_sum]
    refine Finset.sum_congr rfl fun σ _ => ?_
    by_cases h1 : pext T σ t = i <;> by_cases h2 : pext T σ (t + 1) = j <;>
      simp [h1, h2]
  calc
    ∑ σ : Fin (T + 1) → Fin N,
        ((pathP h O T (pext T σ) : ℚ) : ℝ) / ((pobs h O (T + 1) : ℚ) : ℝ) *
          ((if pext T σ t = i then 1 else 0) * (if pext T σ (t + 1) = j then 1 else 0))
        = (∑ σ : Fin (T + 1) → Fin N,
            ((pathP h O T (pext T σ) : ℚ) : ℝ) *
              ((if pext T σ t = i then 1 else 0) *
                (if pext T σ (t + 1) = j then 1 else 0)))
            / ((pobs h O (T + 1) : ℚ) : ℝ) := by
          rw [Finset.sum_div]
          refine Finset.sum_congr rfl fun σ _ => ?_
          ring
    _ = ((alpha h O t i * h.A i j * Z h O (t + 1) j * beta h O (T + 1) (t + 1) j : ℚ) : ℝ)
            / ((pobs h O (T + 1) : ℚ) : ℝ) := by rw [hcast]
    _ = ((xi h O (T + 1) t i j : ℚ) : ℝ) := by
          show _ = ((alpha h O t i * h.A i j * beta h O (T + 1) (t + 1) j *
              Z h O (t + 1) j / pobs h O (T + 1) : ℚ) : ℝ)
          push_cast
          ring

/-- The expected one-hot emission count under the path posterior equals the
summed psi statistics. -/
theorem count_B (h : HMM N M) (O : ℕ → Fin M) (T : ℕ) (i : Fin N) (k : Fin M) :
    ∑ σ : Fin (T + 1) → Fin N, ∑ t ∈ Finset.range (T + 1),
        ((pathP h O T (pext T σ) : ℚ) : ℝ) / ((pobs h O (T + 1) : ℚ) : ℝ) *
          ((if pext T σ t = i then 1 else 0) * (if O t = k then 1 else 0))
      = ((∑ t ∈ Finset.range (T + 1), psi h O (T + 1) t i k : ℚ) : ℝ) := by
  rw [Finset.sum_comm, Rat.cast_sum]
  refine Finset.sum_congr rfl fun t htm => ?_
  have htT : t ≤ T := by
    have := Finset.mem_range.mp htm
    omega
  calc
    ∑ σ : Fin (T + 1) → Fin N,
        ((pathP h O T (pext T σ) : ℚ) : ℝ) / ((pobs h O (T + 1) : ℚ) : ℝ) *
          ((if pext T σ t = i then 1 else 0) * (if O t = k then 1 else 0))
        = (∑ σ : Fin (T + 1) → Fin N,
            ((pathP h O T (pext T σ) : ℚ) : ℝ) / ((pobs h O (T + 1) : ℚ) : ℝ) *
              (if pext T σ t = i then 1 else 0)) * (if O t = k then 1 else 0) := by
          rw [Finset.sum_mul]
          refine Finset.sum_congr rfl fun σ _ => ?_
          ring
    _ = ((gamma h O (T + 1) t i : ℚ) : ℝ) * (if O t = k then 1 else 0) := by
          rw [count_gamma h O T t htT i]
    _ = ((psi h O (T + 1) t i k : ℚ) : ℝ) := by
          show _ = ((gamma h O (T + 1) t i * (if O t = k then (1 : ℚ) else 0) : ℚ) : ℝ)
          by_cases hk : O t = k
          · rw [if_pos hk, if_pos hk]
            push_cast
            ring
          · rw [if_neg hk, if_neg hk]
            push_cast
            ring

/-- M-step optimality for the initial distribution: replacing Pi by the
gamma row at time 0 does not decrease the weighted geometric mean. -/
theorem pi_block_le (h : HMM N M) (O : ℕ → Fin M) (T : ℕ)
    (hA : ∀ i j, 0 ≤ h.A i j) (hB : ∀ i k, 0 ≤ h.B i k) (hPi : ∀ i, 0 ≤ h.Pi i)
    (hPis : ∑ i, h.Pi i = 1) (hp : 0 < pobs h O (T + 1)) :
    ∏ i, ((h.Pi i : ℚ) : ℝ) ^ ((gamma h O (T + 1) 0 i : ℚ) : ℝ)
      ≤ ∏ i, (((HMM.learn h O (T + 1)).Pi i : ℚ) : ℝ) ^
          ((gamma h O (T + 1) 0 i : ℚ) : ℝ) := by
  have hc : ∀ i, (0 : ℝ) ≤ ((gamma h O (T + 1) 0 i : ℚ) : ℝ) := fun i => by
    exact_mod_cast gamma_nonneg h O (T + 1) hA hB hPi hp.le 0 i
  have hcs : ∑ i, ((gamma h O (T + 1) 0 i : ℚ) : ℝ) = 1 := by
    rw [← Rat.cast_sum]
    exact_mod_cast gamma_rowsum h O (ne_of_gt hp) (Nat.zero_le _)
  have hx : ∀ i, (0 : ℝ) ≤ ((h.Pi i : ℚ) : ℝ) := fun i => by exact_mod_cast hPi i
  have hxs : ∑ i, ((h.Pi i : ℚ) : ℝ) ≤ 1 := by
    rw [← Rat.cast_sum]
    exact_mod_cast le_of_eq hPis
  have hkey := gibbs_simplex Finset.univ (fun i => ((gamma h O (T + 1) 0 i : ℚ) : ℝ))
    (fun i => ((h.Pi i : ℚ) : ℝ)) (fun i _ => hc i) hcs (fun i _ => hx i) hxs
  exact le_of_le_of_eq hkey (Finset.prod_congr rfl fun i _ => rfl)

/-- M-step optimality for the transition matrix: replacing each row of A by
its normalized expected transition counts does not decrease the weighted
geometric mean. -/
theorem A_block_le (h : HMM N M) (O : ℕ → Fin M) (T : ℕ)
    (hA : ∀ i j, 0 ≤ h.A i j) (hB : ∀ i k, 0 ≤ h.B i k) (hPi : ∀ i, 0 ≤ h.Pi i)
    (hAs : ∀ i, ∑ j, h.A i j = 1) (hp : 0 < pobs h O (T + 1)) :
    ∏ i, ∏ j, ((h.A i j : ℚ) : ℝ) ^
        ((∑ t ∈ Finset.range T, xi h O (T + 1) t i j : ℚ) : ℝ)
      ≤ ∏ i, ∏ j, (((HMM.learn h O (T + 1)).A i j : ℚ) : ℝ) ^
          ((∑ t ∈ Finset.range T, xi h O (T + 1) t i j : ℚ) : ℝ) := by
  refine Finset.prod_le_prod (fun i _ => Finset.prod_nonneg fun j _ =>
    Real.rpow_nonneg (by exact_mod_cast hA i j) _) (fun i _ => ?_)
  have hc : ∀ j, (0 : ℝ) ≤ ((∑ t ∈ Finset.range T, xi h O (T + 1) t i j : ℚ) : ℝ) :=
    fun j => by
      exact_mod_cast Finset.sum_nonneg fun t _ =>
        xi_nonneg h O (T + 1) hA hB hPi hp.le t i j
  have hx : ∀ j, (0 : ℝ) ≤ ((h.A i j : ℚ) : ℝ) := fun j => by exact_mod_cast hA i j
  have hxs : ∑ j, ((h.A i j : ℚ) : ℝ) ≤ 1 := by
    rw [← Rat.cast_sum]
    exact_mod_cast le_of_eq (hAs i)
  have hkey := gibbs_counts Finset.univ
    (fun j => ((∑ t ∈ Finset.range T, xi h O (T + 1) t i j : ℚ) : ℝ))
    (fun j => ((h.A i j : ℚ) : ℝ)) (fun j _ => hc j) (fun j _ => hx j) hxs
  refine le_trans hkey (le_of_eq (Finset.prod_congr rfl fun j _ => ?_))
  congr 1
  have hden : ∑ j', ∑ t ∈ Finset.range T, xi h O (T + 1) t i j'
      = ∑ t ∈ Finset.range T, gamma h O (T + 1) t i := by
    rw [Finset.sum_comm]
    refine Finset.sum_congr rfl fun t htm => ?_
    have := Finset.mem_range.mp htm
    exact sum_xi_eq_gamma h O (by omega) i
  have hlearn : (HMM.learn h O (T + 1)).A i j
      = (∑ t ∈ Finset.range T, xi h O (T + 1) t i j) /
        (∑ t ∈ Finset.range T, gamma h O (T + 1) t i) := rfl
  have hdenR : ∑ j' : Fin N, ∑ t ∈ Finset.range T, ((xi h O (T + 1) t i j' : ℚ) : ℝ)
      = ∑ t ∈ Finset.range T, ((gamma h O (T + 1) t i : ℚ) : ℝ) := by
    exact_mod_cast hden
  rw [hlearn]
  push_cast
  rw [hdenR]

/-- M-step optimality for the emission matrix: replacing each row of B by
its normalized expected emission counts does not decrease the weighted
geometric mean. -/
theorem B_block_le (h : HMM N M) (O : ℕ → Fin M) (T : ℕ)
    (hA : ∀ i j, 0 ≤ h.A i j) (hB : ∀ i k, 0 ≤ h.B i k) (hPi : ∀ i, 0 ≤ h.Pi i)
    (hBs : ∀ i, ∑ k, h.B i k = 1) (hp : 0 < pobs h O (T + 1)) :
    ∏ i, ∏ k, ((h.B i k : ℚ) : ℝ) ^
        ((∑ t ∈ Finset.range (T + 1), psi h O (T + 1) t i k : ℚ) : ℝ)
      ≤ ∏ i, ∏ k, (((HMM.learn h O (T + 1)).B i k : ℚ) : ℝ) ^
          ((∑ t ∈ Finset.range (T + 1), psi h O (T + 1) t i k : ℚ) : ℝ) := by
  refine Finset.prod_le_prod (fun i _ => Finset.prod_nonneg fun k _ =>
    Real.rpow_nonneg (by exact_mod_cast hB i k) _) (fun i _ => ?_)
  have hpsinn : ∀ t k, 0 ≤ psi h O (T + 1) t i k := fun t k =>
    mul_nonneg (gamma_nonneg h O (T + 1) hA hB hPi hp.le t i) (by split <;> norm_num)
  have hc : ∀ k, (0 : ℝ) ≤ ((∑ t ∈ Finset.range (T + 1), psi h O (T + 1) t i k : ℚ) : ℝ) :=
    fun k => by exact_mod_cast Finset.sum_nonneg fun t _ => hpsinn t k
  have hx : ∀ k, (0 : ℝ) ≤ ((h.B i k : ℚ) : ℝ) := fun k => by exact_mod_cast hB i k
  have hxs : ∑ k, ((h.B i k : ℚ) : ℝ) ≤ 1 := by
    rw [← Rat.cast_sum]
    exact_mod_cast le_of_eq (hBs i)
  have hkey := gibbs_counts Finset.univ
    (fun k => ((∑ t ∈ Finset.range (T + 1), psi h O (T + 1) t i k : ℚ) : ℝ))
    (fun k => ((h.B i k : ℚ) : ℝ)) (fun k _ => hc k) (fun k _ => hx k) hxs
  refine le_trans hkey (le_of_eq (Finset.prod_congr rfl fun k _ => ?_))
  congr 1
  have hden : ∑ k', ∑ t ∈ Finset.range (T + 1), psi h O (T + 1) t i k'
      = ∑ t ∈ Finset.range (T + 1), gamma h O (T + 1) t i := by
    rw [Finset.sum_comm]
    exact Finset.sum_congr rfl fun t _ => sum_psi_eq_gamma h O (T + 1) t i
  have hlearn : (HMM.learn h O (T + 1)).B i k
      = (∑ t ∈ Finset.range (T + 1), psi h O (T + 1) t i k) /
        (∑ t ∈ Finset.range (T + 1), gamma h O (T + 1) t i) := rfl
  have hdenR : ∑ k' : Fin M, ∑ t ∈ Finset.range (T + 1),
        ((psi h O (T + 1) t i k' : ℚ) : ℝ)
      = ∑ t ∈ Finset.range (T + 1), ((gamma h O (T + 1) t i : ℚ) : ℝ) := by
    exact_mod_cast hden
  rw [hlearn]
  push_cast
  rw [hdenR]

/-- Q-function monotonicity: against the posterior path weights of the old
model, the weighted geometric mean of path probabilities does not decrease
when the parameters are replaced by their full-EM reestimates. -/
theorem prod_pathP_le_learn (h : HMM N M) (O : ℕ → Fin M) (T : ℕ)
    (hA : ∀ i j, 0 ≤ h.A i j) (hB : ∀ i k, 0 ≤ h.B i k) (hPi : ∀ i, 0 ≤ h.Pi i)
    (hAs : ∀ i, ∑ j, h.A i j = 1) (hBs : ∀ i, ∑ k, h.B i k = 1)
    (hPis : ∑ i, h.Pi i = 1) (hp : 0 < pobs h O (T + 1)) :
    ∏ σ : Fin (T + 1) → Fin N, ((pathP h O T (pext T σ) : ℚ) : ℝ) ^
        (((pathP h O T (pext T σ) : ℚ) : ℝ) / ((pobs h O (T + 1) : ℚ) : ℝ))
      ≤ ∏ σ : Fin (T + 1) → Fin N,
          ((pathP (HMM.learn h O (T + 1)) O T (pext T σ) : ℚ) : ℝ) ^
            (((pathP h O T (pext T σ) : ℚ) : ℝ) / ((pobs h O (T + 1) : ℚ) : ℝ)) := by
  have hppos : (0 : ℝ) < ((pobs h O (T + 1) : ℚ) : ℝ) := by exact_mod_cast hp
  have hw : ∀ σ : Fin (T + 1) → Fin N, 0 ≤
      ((pathP h O T (pext T σ) : ℚ) : ℝ) / ((pobs h O (T + 1) : ℚ) : ℝ) := fun σ =>
    div_nonneg (by exact_mod_cast pathP_nonneg h O T (pext T σ) hA hB hPi) hppos.le
  obtain ⟨hA', hB', hPi'⟩ := learn_nonneg h O (T + 1) hA hB hPi hp.le
  have hdecL : ∏ σ : Fin (T + 1) → Fin N, ((pathP h O T (pext T σ) : ℚ) : ℝ) ^
        (((pathP h O T (pext T σ) : ℚ) : ℝ) / ((pobs h O (T + 1) : ℚ) : ℝ))
      = (∏ i, ((h.Pi i : ℚ) : ℝ) ^
            (∑ σ : Fin (T + 1) → Fin N,
              ((pathP h O T (pext T σ) : ℚ) : ℝ) / ((pobs h O (T + 1) : ℚ) : ℝ) *
                (if pext T σ 0 = i then 1 else 0)))
        * (∏ i, ∏ j, ((h.A i j : ℚ) : ℝ) ^
            (∑ σ : Fin (T + 1) → Fin N, ∑ t ∈ Finset.range T,
              ((pathP h O T (pext T σ) : ℚ) : ℝ) / ((pobs h O (T + 1) : ℚ) : ℝ) *
                ((if pext T σ t = i then 1 else 0) *
                  (if pext T σ (t + 1) = j then 1 else 0))))
        * (∏ i, ∏ k, ((h.B i k : ℚ) : ℝ) ^
            (∑ σ : Fin (T + 1) → Fin N, ∑ t ∈ Finset.range (T + 1),
              ((pathP h O T (pext T σ) : ℚ) : ℝ) / ((pobs h O (T + 1) : ℚ) : ℝ) *
                ((if pext T σ t = i then 1 else 0) * (if O t = k then 1 else 0)))) :=
    prod_pathP_rpow h O T
      (fun σ => ((pathP h O T (pext T σ) : ℚ) : ℝ) / ((pobs h O (T + 1) : ℚ) : ℝ))
      hw hA hB hPi
  have hdecR : ∏ σ : Fin (T + 1) → Fin N,
        ((pathP (HMM.learn h O (T + 1)) O T (pext T σ) : ℚ) : ℝ) ^
          (((pathP h O T (pext T σ) : ℚ) : ℝ) / ((pobs h O (T + 1) : ℚ) : ℝ))
      = (∏ i, (((HMM.learn h O (T + 1)).Pi i : ℚ) : ℝ) ^
            (∑ σ : Fin (T + 1) → Fin N,
              ((pathP h O T (pext T σ) : ℚ) : ℝ) / ((pobs h O (T + 1) : ℚ) : ℝ) *
                (if pext T σ 0 = i then 1 else 0)))
        * (∏ i, ∏ j, (((HMM.learn h O (T + 1)).A i j : ℚ) : ℝ) ^
            (∑ σ : Fin (T + 1) → Fin N, ∑ t ∈ Finset.range T,
              ((pathP h O T (pext T σ) : ℚ) : ℝ) / ((pobs h O (T + 1) : ℚ) : ℝ) *
                ((if pext T σ t = i then 1 else 0) *
                  (if pext T σ (t + 1) = j then 1 else 0))))
        * (∏ i, ∏ k, (((HMM.learn h O (T + 1)).B i k : ℚ) : ℝ) ^
            (∑ σ : Fin (T + 1) → Fin N, ∑ t ∈ Finset.range (T + 1),
              ((pathP h O T (pext T σ) : ℚ) : ℝ) / ((pobs h O (T + 1) : ℚ) : ℝ) *
                ((if pext T σ t = i then 1 else 0) * (if O t = k then 1 else 0)))) :=
    prod_pathP_rpow (HMM.learn h O (T + 1)) O T
      (fun σ => ((pathP h O T (pext T σ) : ℚ) : ℝ) / ((pobs h O (T + 1) : ℚ) : ℝ))
      hw hA' hB' hPi'
  rw [hdecL, hdecR]
  simp only [count_gamma h O T 0 (Nat.zero_le T), count_A h O T, count_B h O T]
  have h1 := pi_block_le h O T hA hB hPi hPis hp
  have h2 := A_block_le h O T hA hB hPi hAs hp
  have h3 := B_block_le h O T hA hB hPi hBs hp
  have hn1 : (0 : ℝ) ≤ ∏ i, ∏ j, ((h.A i j : ℚ) : ℝ) ^
      ((∑ t ∈ Finset.range T, xi h O (T + 1) t i j : ℚ) : ℝ) :=
    Finset.prod_nonneg fun i _ => Finset.prod_nonneg fun j _ =>
      Real.rpow_nonneg (by exact_mod_cast hA i j) _
  have hn2 : (0 : ℝ) ≤ ∏ i, (((HMM.learn h O (T + 1)).Pi i : ℚ) : ℝ) ^
      ((gamma h O (T + 1) 0 i : ℚ) : ℝ) :=
    Finset.prod_nonneg fun i _ => Real.rpow_nonneg (by exact_mod_cast hPi' i) _
  have hn3 : (0 : ℝ) ≤ ∏ i, ∏ k, ((h.B i k : ℚ) : ℝ) ^
      ((∑ t ∈ Finset.range (T + 1), psi h O (T + 1) t i k : ℚ) : ℝ) :=
    Finset.prod_nonneg fun i _ => Finset.prod_nonneg fun k _ =>
      Real.rpow_nonneg (by exact_mod_cast hB i k) _
  have hn4 : (0 : ℝ) ≤ (∏ i, (((HMM.learn h O (T + 1)).Pi i : ℚ) : ℝ) ^
        ((gamma h O (T + 1) 0 i : ℚ) : ℝ))
      * ∏ i, ∏ j, (((HMM.learn h O (T + 1)).A i j : ℚ) : ℝ) ^
        ((∑ t ∈ Finset.range T, xi h O (T + 1) t i j : ℚ) : ℝ) :=
    mul_nonneg hn2 (Finset.prod_nonneg fun i _ => Finset.prod_nonneg fun j _ =>
      Real.rpow_nonneg (by exact_mod_cast hA' i j) _)
  exact mul_le_mul (mul_le_mul h1 h2 hn1 hn2) h3 hn3 hn4

/-- Claim C2: for a valid model (nonnegative row-stochastic parameters) and
a non-degenerate loaded sequence (positive pobs), one full-EM reestimation
step followed by recomputing pobs on the same sequence never decreases
pobs. -/
theorem fullEM_pobs_nondecreasing (h : HMM N M) (O : ℕ → Fin M) (T : ℕ) (hT : 1 ≤ T)
    (hA : ∀ i j, 0 ≤ h.A i j) (hB : ∀ i k, 0 ≤ h.B i k) (hPi : ∀ i, 0 ≤ h.Pi i)
    (hAs : ∀ i, ∑ j, h.A i j = 1) (hBs : ∀ i, ∑ k, h.B i k = 1)
    (hPis : ∑ i, h.Pi i = 1) (hp : 0 < pobs h O T) :
    pobs h O T ≤ pobs (HMM.learn h O T) O T := by
  obtain ⟨T', rfl⟩ : ∃ T'', T = T'' + 1 := ⟨T - 1, by omega⟩
  classical
  have hppos : (0 : ℝ) < ((pobs h O (T' + 1) : ℚ) : ℝ) := by exact_mod_cast hp
  have hPnnQ : ∀ σ : Fin (T' + 1) → Fin N, 0 ≤ pathP h O T' (pext T' σ) :=
    fun σ => pathP_nonneg h O T' (pext T' σ) hA hB hPi
  obtain ⟨hA', hB', hPi'⟩ := learn_nonneg h O (T' + 1) hA hB hPi hp.le
  have hP'nnQ : ∀ σ : Fin (T' + 1) → Fin N,
      0 ≤ pathP (HMM.learn h O (T' + 1)) O T' (pext T' σ) :=
    fun σ => pathP_nonneg _ O T' (pext T' σ) hA' hB' hPi'
  have hsum_univ : ∑ σ : Fin (T' + 1) → Fin N,
      ((pathP h O T' (pext T' σ) : ℚ) : ℝ) = ((pobs h O (T' + 1) : ℚ) : ℝ) := by
    exact_mod_cast sum_pathP h O T'
  have hsum_univ' : ∑ σ : Fin (T' + 1) → Fin N,
      ((pathP (HMM.learn h O (T' + 1)) O T' (pext T' σ) : ℚ) : ℝ)
      = ((pobs (HMM.learn h O (T' + 1)) O (T' + 1) : ℚ) : ℝ) := by
    exact_mod_cast sum_pathP (HMM.learn h O (T' + 1)) O T'
  have hwS : ∑ σ ∈ Finset.univ.filter
        (fun σ : Fin (T' + 1) → Fin N => pathP h O T' (pext T' σ) ≠ 0),
      ((pathP h O T' (pext T' σ) : ℚ) : ℝ) / ((pobs h O (T' + 1) : ℚ) : ℝ) = 1 := by
    have hext : ∑ σ ∈ Finset.univ.filter
          (fun σ : Fin (T' + 1) → Fin N => pathP h O T' (pext T' σ) ≠ 0),
        ((pathP h O T' (pext T' σ) : ℚ) : ℝ) / ((pobs h O (T' + 1) : ℚ) : ℝ)
        = ∑ σ : Fin (T' + 1) → Fin N,
          ((pathP h O T' (pext T' σ) : ℚ) : ℝ) / ((pobs h O (T' + 1) : ℚ) : ℝ) := by
      refine Finset.sum_subset (Finset.filter_subset _ _) (fun σ _ hσ => ?_)
      have h0 : pathP h O T' (pext T' σ) = 0 := by
        by_contra hne
        exact hσ (Finset.mem_filter.mpr ⟨Finset.mem_univ σ, hne⟩)
      rw [h0]
      norm_num
    rw [hext, ← Finset.sum_div, hsum_univ, div_self (ne_of_gt hppos)]
  have hgm := Real.geom_mean_le_arith_mean_weighted
    (Finset.univ.filter
      (fun σ : Fin (T' + 1) → Fin N => pathP h O T' (pext T' σ) ≠ 0))
    (fun σ => ((pathP h O T' (pext T' σ) : ℚ) : ℝ) / ((pobs h O (T' + 1) : ℚ) : ℝ))
    (fun σ => ((pathP (HMM.learn h O (T' + 1)) O T' (pext T' σ) : ℚ) : ℝ) /
      ((pathP h O T' (pext T' σ) : ℚ) : ℝ))
    (fun σ _ => div_nonneg (by exact_mod_cast hPnnQ σ) hppos.le) hwS
    (fun σ _ => div_nonneg (by exact_mod_cast hP'nnQ σ)
      (by exact_mod_cast hPnnQ σ))
  have harith : ∑ σ ∈ Finset.univ.filter
        (fun σ : Fin (T' + 1) → Fin N => pathP h O T' (pext T' σ) ≠ 0),
      (((pathP h O T' (pext T' σ) : ℚ) : ℝ) / ((pobs h O (T' + 1) : ℚ) : ℝ)) *
        (((pathP (HMM.learn h O (T' + 1)) O T' (pext T' σ) : ℚ) : ℝ) /
          ((pathP h O T' (pext T' σ) : ℚ) : ℝ))
      ≤ ((pobs (HMM.learn h O (T' + 1)) O (T' + 1) : ℚ) : ℝ) /
          ((pobs h O (T' + 1) : ℚ) : ℝ) := by
    have hterm : ∀ σ ∈ Finset.univ.filter
          (fun σ : Fin (T' + 1) → Fin N => pathP h O T' (pext T' σ) ≠ 0),
        (((pathP h O T' (pext T' σ) : ℚ) : ℝ) / ((pobs h O (T' + 1) : ℚ) : ℝ)) *
          (((pathP (HMM.learn h O (T' + 1)) O T' (pext T' σ) : ℚ) : ℝ) /
            ((pathP h O T' (pext T' σ) : ℚ) : ℝ))
        = ((pathP (HMM.learn h O (T' + 1)) O T' (pext T' σ) : ℚ) : ℝ) /
            ((pobs h O (T' + 1) : ℚ) : ℝ) := by
      intro σ hσ
      have hne : ((pathP h O T' (pext T' σ) : ℚ) : ℝ) ≠ 0 := by
        exact_mod_cast (Finset.mem_filter.mp hσ).2
      field_simp
      ring
    rw [Finset.sum_congr rfl hterm]
    have hsub : ∑ σ ∈ Finset.univ.filter
          (fun σ : Fin (T' + 1) → Fin N => pathP h O T' (pext T' σ) ≠ 0),
        ((pathP (HMM.learn h O (T' + 1)) O T' (pext T' σ) : ℚ) : ℝ) /
          ((pobs h O (T' + 1) : ℚ) : ℝ)
        ≤ ∑ σ : Fin (T' + 1) → Fin N,
          ((pathP (HMM.learn h O (T' + 1)) O T' (pext T' σ) : ℚ) : ℝ) /
            ((pobs h O (T' + 1) : ℚ) : ℝ) :=
      Finset.sum_le_sum_of_subset_of_nonneg (Finset.filter_subset _ _)
        (fun σ _ _ => div_nonneg (by exact_mod_cast hP'nnQ σ) hppos.le)
    refine le_trans hsub (le_of_eq ?_)
    rw [← Finset.sum_div, hsum_univ']
  have hprodS : ∏ σ ∈ Finset.univ.filter
        (fun σ : Fin (T' + 1) → Fin N => pathP h O T' (pext T' σ) ≠ 0),
      (((pathP (HMM.learn h O (T' + 1)) O T' (pext T' σ) : ℚ) : ℝ) /
          ((pathP h O T' (pext T' σ) : ℚ) : ℝ)) ^
        (((pathP h O T' (pext T' σ) : ℚ) : ℝ) / ((pobs h O (T' + 1) : ℚ) : ℝ))
      = (∏ σ ∈ Finset.univ.filter
          (fun σ : Fin (T' + 1) → Fin N => pathP h O T' (pext T' σ) ≠ 0),
          ((pathP (HMM.learn h O (T' + 1)) O T' (pext T' σ) : ℚ) : ℝ) ^
            (((pathP h O T' (pext T' σ) : ℚ) : ℝ) / ((pobs h O (T' + 1) : ℚ) : ℝ)))
        / ∏ σ ∈ Finset.univ.filter
          (fun σ : Fin (T' + 1) → Fin N => pathP h O T' (pext T' σ) ≠ 0),
          ((pathP h O T' (pext T' σ) : ℚ) : ℝ) ^
            (((pathP h O T' (pext T' σ) : ℚ) : ℝ) / ((pobs h O (T' + 1) : ℚ) : ℝ)) := by
    rw [← Finset.prod_div_distrib]
    exact Finset.prod_congr rfl fun σ _ =>
      Real.div_rpow (by exact_mod_cast hP'nnQ σ) (by exact_mod_cast hPnnQ σ) _
  have hdenpos : 0 < ∏ σ ∈ Finset.univ.filter
        (fun σ : Fin (T' + 1) → Fin N => pathP h O T' (pext T' σ) ≠ 0),
      ((pathP h O T' (pext T' σ) : ℚ) : ℝ) ^
        (((pathP h O T' (pext T' σ) : ℚ) : ℝ) / ((pobs h O (T' + 1) : ℚ) : ℝ)) := by
    refine Finset.prod_pos fun σ hσ => Real.rpow_pos_of_pos ?_ _
    have hne := (Finset.mem_filter.mp hσ).2
    have hlt := lt_of_le_of_ne (hPnnQ σ) (Ne.symm hne)
    exact_mod_cast hlt
  have hSfull : ∏ σ ∈ Finset.univ.filter
        (fun σ : Fin (T' + 1) → Fin N => pathP h O T' (pext T' σ) ≠ 0),
      ((pathP h O T' (pext T' σ) : ℚ) : ℝ) ^
        (((pathP h O T' (pext T' σ) : ℚ) : ℝ) / ((pobs h O (T' + 1) : ℚ) : ℝ))
      = ∏ σ : Fin (T' + 1) → Fin N,
        ((pathP h O T' (pext T' σ) : ℚ) : ℝ) ^
          (((pathP h O T' (pext T' σ) : ℚ) : ℝ) / ((pobs h O (T' + 1) : ℚ) : ℝ)) := by
    refine Finset.prod_subset (Finset.filter_subset _ _) (fun σ _ hσ => ?_)
    have h0 : pathP h O T' (pext T' σ) = 0 := by
      by_contra hne
      exact hσ (Finset.mem_filter.mpr ⟨Finset.mem_univ σ, hne⟩)
    rw [h0]
    push_cast
    rw [zero_div, Real.rpow_zero]
  have hS'full : ∏ σ ∈ Finset.univ.filter
        (fun σ : Fin (T' + 1) → Fin N => pathP h O T' (pext T' σ) ≠ 0),
      ((pathP (HMM.learn h O (T' + 1)) O T' (pext T' σ) : ℚ) : ℝ) ^
        (((pathP h O T' (pext T' σ) : ℚ) : ℝ) / ((pobs h O (T' + 1) : ℚ) : ℝ))
      = ∏ σ : Fin (T' + 1) → Fin N,
        ((pathP (HMM.learn h O (T' + 1)) O T' (pext T' σ) : ℚ) : ℝ) ^
          (((pathP h O T' (pext T' σ) : ℚ) : ℝ) / ((pobs h O (T' + 1) : ℚ) : ℝ)) := by
    refine Finset.prod_subset (Finset.filter_subset _ _) (fun σ _ hσ => ?_)
    have h0 : pathP h O T' (pext T' σ) = 0 := by
      by_contra hne
      exact hσ (Finset.mem_filter.mpr ⟨Finset.mem_univ σ, hne⟩)
    rw [h0]
    push_cast
    rw [zero_div, Real.rpow_zero]
  have hKEY := prod_pathP_le_learn h O T' hA hB hPi hAs hBs hPis hp
  have hone : (1 : ℝ) ≤ ∏ σ ∈ Finset.univ.filter
        (fun σ : Fin (T' + 1) → Fin N => pathP h O T' (pext T' σ) ≠ 0),
      (((pathP (HMM.learn h O (T' + 1)) O T' (pext T' σ) : ℚ) : ℝ) /
          ((pathP h O T' (pext T' σ) : ℚ) : ℝ)) ^
        (((pathP h O T' (pext T' σ) : ℚ) : ℝ) / ((pobs h O (T' + 1) : ℚ) : ℝ)) := by
    rw [hprodS, le_div_iff₀ hdenpos, one_mul, hSfull, hS'full]
    exact hKEY
  have hfinal : (1 : ℝ) ≤ ((pobs (HMM.learn h O (T' + 1)) O (T' + 1) : ℚ) : ℝ) /
      ((pobs h O (T' + 1) : ℚ) : ℝ) := le_trans (le_trans hone hgm) harith
  have hcast : ((pobs h O (T' + 1) : ℚ) : ℝ)
      ≤ ((pobs (HMM.learn h O (T' + 1)) O (T' + 1) : ℚ) : ℝ) := by
    have := (le_div_iff₀ hppos).mp hfinal
    rwa [one_mul] at this
  exact_mod_cast hcast

/-- Claim C2, witness at the uniform model m1 and the loaded sequence O1 of
length 2. -/
theorem fullEM_pobs_nondecreasing_witness :
    pobs m1 O1 2 ≤ pobs (HMM.learn m1 O1 2) O1 2 :=
  fullEM_pobs_nondecreasing m1 O1 2 (by norm_num)
    (fun i j => by norm_num [m1])
    (fun i k => by norm_num [m1])
    (fun i => by norm_num [m1])
    (fun i => by norm_num [m1, Fin.sum_univ_two])
    (fun i => by norm_num [m1, Fin.sum_univ_two])
    (by norm_num [m1, Fin.sum_univ_two])
    (by norm_num [pobs, alpha, Z, m1, O1, Fin.sum_univ_two])

end HMMRepo
